import Mathlib

/-!
# RestResponse: the bounded response writer of the Contiki REST wrapper

A shallow embedding of `smeshcore/privatelibrary/contiki-REST/RestResponse.cpp`.

* A C `char` is modelled by a Lean `Char`; nothing below does arithmetic on a
  byte apart from the `%c` conversion.
* Memory reachable from the `buffer` pointer is a function from the index
  (relative to `buffer`) to the byte stored there, so a copy that runs past the
  chunk is visible in the model.
* `size_t` values are naturals reduced modulo `2 ^ sizeBits`.
* A `double` is an IEEE 754 binary64 number: a finite one is held as its exact
  rational value, and every arithmetic operation of the source on doubles is
  the exact operation followed by `roundDouble`, rounding to the nearest
  binary64 value, ties to the even significand. The values `printFloat`
  computes stay below `2 ^ 36`, far from the overflow threshold, which is
  therefore not modelled.
* The calls made on the `REST` engine with the `response` handle are recorded
  in order in the `sink` log.
-/

/-- The terminating byte of a C string. -/
def NUL : Char := Char.ofNat 0

/-- A `double`: not-a-number, an infinity, or a finite value (its exact
rational value). -/
inductive Dbl where
  | nan
  | inf (negative : Bool)
  | fin (value : ℚ)

/-! ## Binary64 arithmetic -/

/-- The integer nearest to `m`; of the two nearest ones, the even one. -/
def roundHalfEven (m : ℚ) : Int :=
  if m - Int.floor m < 1 / 2 then Int.floor m
  else if 1 / 2 < m - Int.floor m then Int.floor m + 1
  else if Int.floor m % 2 = 0 then Int.floor m
  else Int.floor m + 1

/-- The position of the leading binary digit of `n`, found in at most `fuel`
halvings (0 for `n < 2`). -/
def log2Fuel : Nat → Nat → Nat
  | 0, _ => 0
  | fuel + 1, n => if n < 2 then 0 else log2Fuel fuel (n / 2) + 1

/-- The position of the leading binary digit of `n`. -/
def ilog2 (n : Nat) : Nat := log2Fuel n n

/-- The power `2 ^ e` for an integer exponent, as a rational. -/
def pow2 (e : Int) : ℚ :=
  if 0 ≤ e then ((2 ^ e.toNat : Nat) : ℚ) else 1 / ((2 ^ (-e).toNat : Nat) : ℚ)

/-- The binary exponent of a non-zero rational: the `e` with
`2 ^ e ≤ |q| < 2 ^ (e + 1)`. -/
def binade (q : ℚ) : Int :=
  if 2 ^ ilog2 q.num.natAbs * q.den ≤ q.num.natAbs * 2 ^ ilog2 q.den then
    (ilog2 q.num.natAbs : Int) - (ilog2 q.den : Int)
  else (ilog2 q.num.natAbs : Int) - (ilog2 q.den : Int) - 1

/-- The spacing of the binary64 values around `q`: 53 significant binary
digits, and the fixed spacing `2 ^ (-1074)` of the subnormal range below
`2 ^ (-1022)`. -/
def ulp (q : ℚ) : ℚ := pow2 (max (binade q) (-1022) - 52)

/-- Rounding to binary64: the multiple of `ulp q` nearest to `q`, ties to the
even multiple. -/
def roundDouble (q : ℚ) : ℚ :=
  if 0 < q ∨ q < 0 then (roundHalfEven (q / ulp q) : ℚ) * ulp q else 0

/-- Which pointer a payload submission carries: the writer's own `buffer`, or a
pointer handed in by the caller of `setPayload`. -/
inductive PayloadPtr where
  | buffer
  | caller
  deriving DecidableEq, Repr

/-- One call on the `REST` engine for the `response` handle. A payload
submission records the pointer, the bytes found behind it (`length` of them)
and the length. -/
inductive SinkCall where
  | set_response_payload (ptr : PayloadPtr) (bytes : List Char) (length : Nat)
  | set_response_status (code : Nat)
  | set_header_content_type (contentType : Nat)
  | set_header_max_age (age : Nat)
  | set_header_etag (etag : List Char) (length : Nat)
  | set_header_location (location : List Char)
  deriving DecidableEq, Repr

/-- What the source takes from outside the file: the chunk size macro, the
widths of `size_t` and `unsigned long` (ISO C gives `unsigned long` at least
32 bits: a smaller `ulongBits` is read as 32), the `CONTIKI` build switch, the C
library's rendering of a `double` under `%f`, and the result the `REST` engine
returns for a call (given the calls made before it). -/
structure Target where
  REST_MAX_CHUNK_SIZE : Nat
  sizeBits : Nat
  ulongBits : Nat
  CONTIKI : Bool
  fmtDouble : Dbl → List Char
  REST : List SinkCall → SinkCall → Int

/-- A variadic argument after the default promotions (`char` arrives as `int`,
`float` as `double`). -/
inductive Arg where
  | int (v : Int)
  | uint (v : Nat)
  | long (v : Int)
  | ulong (v : Nat)
  | str (s : List Char)
  | dbl (d : Dbl)

/-- The writer: the memory behind `buffer`, `payloadLength` (a `size_t`; its
declaration is in `RestResponse.h`, the setter's parameter type is taken), the
integer behind `offset`, and the calls made so far on the engine. -/
structure RestResponse where
  buffer : Nat → Char
  payloadLength : Nat
  offset : Int
  sink : List SinkCall

/-- Conversion of an integer to `size_t`. -/
def toSize (t : Target) (x : Int) : Nat := (x % (2 : Int) ^ t.sizeBits).toNat

/-- Conversion of an integer to `int32_t` (two's complement wrap). -/
def toInt32 (x : Int) : Int := (x + 2 ^ 31) % 2 ^ 32 - 2 ^ 31

/-- The bytes of a memory at the indices `lo, lo + 1, ..., lo + n - 1`. -/
def bytesAt (mem : Nat → Char) (lo n : Nat) : List Char :=
  (List.range n).map (fun j => mem (lo + j))

/-- The library routine `memcpy(mem + dst, src, n)`. -/
def memcpy (mem : Nat → Char) (dst : Nat) (src : List Char) (n : Nat) : Nat → Char :=
  fun i => if dst ≤ i ∧ i < dst + n then src.getD (i - dst) NUL else mem i

/-- The library routine `strlen`: the number of bytes before the first NUL. -/
def strlen (s : List Char) : Nat := (s.takeWhile (fun c => c != NUL)).length

/-- Decimal text of a signed integer, as `%d` and `%ld` render it. -/
def decimalInt (v : Int) : List Char :=
  if v < 0 then '-' :: Nat.toDigits 10 v.natAbs else Nat.toDigits 10 v.natAbs

/-- One conversion of the C library's formatter: `lmod` tells whether the
length modifier `l` was given, `c` is the conversion character. A character
that is no conversion for the argument gives no text. -/
def conversion (t : Target) (lmod : Bool) (c : Char) (a : Arg) : Option (List Char) :=
  match lmod, c, a with
  | false, 'c', .int v => some [Char.ofNat (v % 256).toNat]
  | false, 'd', .int v => some (decimalInt v)
  | false, 'i', .int v => some (decimalInt v)
  | false, 'u', .uint v => some (Nat.toDigits 10 v)
  | true, 'd', .long v => some (decimalInt v)
  | true, 'i', .long v => some (decimalInt v)
  | true, 'u', .ulong v => some (Nat.toDigits 10 v)
  | false, 's', .str s => some (s.takeWhile (fun c => c != NUL))
  | _, 'f', .dbl d => some (t.fmtDouble d)
  | _, _, _ => none

/-- The text the C library's formatter produces for a format string and its
arguments: ordinary characters are copied, `%%` gives a percent sign, `%` with
an optional `l` and a conversion character consumes one argument. A directive
that ends before its conversion character, or that does not fit its argument,
is not a directive the library defines: no text (`none`). -/
def formatText (t : Target) : List Char → List Arg → Option (List Char)
  | [], _ => some []
  | c :: rest, args =>
    if c = '%' then
      match rest, args with
      | '%' :: rest, args => (formatText t rest args).map (fun y => '%' :: y)
      | 'l' :: c :: rest, a :: args =>
        (conversion t true c a).bind (fun x => (formatText t rest args).map (fun y => x ++ y))
      | c :: rest, a :: args =>
        (conversion t false c a).bind (fun x => (formatText t rest args).map (fun y => x ++ y))
      | _, _ => none
    else (formatText t rest args).map (fun y => c :: y)

/-- The library routine `vsnprintf(mem + dst, size, format, args)`: at most
`size - 1` characters of the text are stored, followed by a NUL (nothing is
stored when `size` is 0), and the length of the whole text is returned,
whether it fitted or not. A format the library does not define stores nothing
and returns -1 (the behaviour of glibc). -/
def vsnprintf (t : Target) (mem : Nat → Char) (dst size : Nat) (format : List Char)
    (args : List Arg) : Int × (Nat → Char) :=
  match formatText t format args with
  | none => (-1, mem)
  | some text =>
    if size = 0 then (text.length, mem)
    else
      (text.length,
        fun i =>
          if dst ≤ i ∧ i < dst + min text.length (size - 1) then text.getD (i - dst) NUL
          else if i = dst + min text.length (size - 1) then NUL
          else mem i)

namespace RestResponse

/-- The constructor: `payloadLength(0)`, no engine call made yet. -/
def new (buffer : Nat → Char) (offset : Int) : RestResponse :=
  { buffer := buffer, payloadLength := 0, offset := offset, sink := [] }

/-- `RestResponse::printf`. -/
def printf (t : Target) (s : RestResponse) (format : List Char) (args : List Arg) :
    Nat × RestResponse :=
  let r := vsnprintf t s.buffer s.payloadLength
    (toSize t ((t.REST_MAX_CHUNK_SIZE : Int) - s.payloadLength)) format args
  let printed := r.1
  (toSize t printed,
    { s with buffer := r.2, payloadLength := toSize t ((s.payloadLength : Int) + printed) })

/-- `RestResponse::write`. -/
def write (t : Target) (s : RestResponse) (data : List Char) (length : Nat) :
    Nat × RestResponse :=
  let copied := toSize t ((t.REST_MAX_CHUNK_SIZE : Int) - s.payloadLength)
  let copied := if copied > length then length else copied
  (copied,
    { s with buffer := memcpy s.buffer s.payloadLength data copied,
             payloadLength := toSize t ((s.payloadLength : Int) + copied) })

/-- `RestResponse::print(char)`. -/
def print_char (t : Target) (s : RestResponse) (c : Char) : Nat × RestResponse :=
  printf t s "%c".toList [Arg.int c.toNat]

/-- `RestResponse::print(int)`. -/
def print_int (t : Target) (s : RestResponse) (i : Int) : Nat × RestResponse :=
  printf t s "%d".toList [Arg.int i]

/-- `RestResponse::print(unsigned int)`. -/
def print_uint (t : Target) (s : RestResponse) (u : Nat) : Nat × RestResponse :=
  printf t s "%u".toList [Arg.uint u]

/-- `RestResponse::print(long)`. -/
def print_long (t : Target) (s : RestResponse) (l : Int) : Nat × RestResponse :=
  printf t s "%l".toList [Arg.long l]

/-- `RestResponse::print(unsigned long)`. -/
def print_ulong (t : Target) (s : RestResponse) (u : Nat) : Nat × RestResponse :=
  printf t s "%lu".toList [Arg.ulong u]

/-- `RestResponse::print(const char *)`. -/
def print_str (t : Target) (s : RestResponse) (str : List Char) : Nat × RestResponse :=
  write t s str (strlen str)

/-- `RestResponse::flush`: the engine is handed `buffer` and `payloadLength`. -/
def flush (s : RestResponse) : RestResponse :=
  { s with sink := s.sink ++
      [SinkCall.set_response_payload PayloadPtr.buffer
        (bytesAt s.buffer 0 s.payloadLength) s.payloadLength] }

/-- `RestResponse::~RestResponse`. -/
def destroy (s : RestResponse) : RestResponse := flush s

/-- `RestResponse::setStatusCode`. -/
def setStatusCode (t : Target) (s : RestResponse) (code : Nat) : Int × RestResponse :=
  (t.REST s.sink (SinkCall.set_response_status code),
    { s with sink := s.sink ++ [SinkCall.set_response_status code] })

/-- `RestResponse::setContentType`. -/
def setContentType (t : Target) (s : RestResponse) (contentType : Nat) : Int × RestResponse :=
  (t.REST s.sink (SinkCall.set_header_content_type contentType),
    { s with sink := s.sink ++ [SinkCall.set_header_content_type contentType] })

/-- `RestResponse::setPayloadLength`. -/
def setPayloadLength (s : RestResponse) (length : Nat) : RestResponse :=
  { s with payloadLength := length }

/-- `RestResponse::setPayload`: the length is set, then the engine is handed
the caller's pointer and the length. -/
def setPayload (t : Target) (s : RestResponse) (payload : List Char) (length : Nat) :
    Int × RestResponse :=
  let s1 := setPayloadLength s length
  (t.REST s1.sink (SinkCall.set_response_payload PayloadPtr.caller payload length),
    { s1 with sink := s1.sink ++ [SinkCall.set_response_payload PayloadPtr.caller payload length] })

/-- `RestResponse::setMaxAge`. -/
def setMaxAge (t : Target) (s : RestResponse) (age : Nat) : Int × RestResponse :=
  (t.REST s.sink (SinkCall.set_header_max_age age),
    { s with sink := s.sink ++ [SinkCall.set_header_max_age age] })

/-- `RestResponse::setETag`. -/
def setETag (t : Target) (s : RestResponse) (etag : List Char) (length : Nat) :
    Int × RestResponse :=
  (t.REST s.sink (SinkCall.set_header_etag etag length),
    { s with sink := s.sink ++ [SinkCall.set_header_etag etag length] })

/-- `RestResponse::setLocation`. -/
def setLocation (t : Target) (s : RestResponse) (location : List Char) : Int × RestResponse :=
  (t.REST s.sink (SinkCall.set_header_location location),
    { s with sink := s.sink ++ [SinkCall.set_header_location location] })

/-- `RestResponse::getOffset`. -/
def getOffset (s : RestResponse) : Int := s.offset

/-- `RestResponse::blockAppend`: `*offset += length` on an `int32_t`. -/
def blockAppend (s : RestResponse) (length : Int) : RestResponse :=
  { s with offset := toInt32 (s.offset + length) }

/-- `RestResponse::blockComplete`. -/
def blockComplete (s : RestResponse) : RestResponse :=
  { s with offset := -1 }

/-- The loop `for (uint8_t i = 0; i < digits; ++i) rounding /= 10.0;` of
`printFloat`, run for at most `fuel` tests of its condition. The result is the
final `rounding` and the number of times the body ran, or `none` when the fuel
ends before the condition fails. -/
def roundingLoop : Nat → Nat → Nat → ℚ → Nat → Option (ℚ × Nat)
  | 0, _, _, _, _ => none
  | fuel + 1, i, digits, rounding, iters =>
    if i < digits then
      roundingLoop fuel ((i + 1) % 256) digits (roundDouble (rounding / 10)) (iters + 1)
    else some (rounding, iters)

/-- The conversion `int(remainder)`: truncation towards zero. -/
def truncToInt (q : ℚ) : Int := if 0 ≤ q then Int.floor q else Int.ceil q

/-- The conversion `(unsigned long) number`: truncation towards zero, defined
only when the truncated value is an `unsigned long` value. -/
def toUnsignedLong (t : Target) (q : ℚ) : Option Nat :=
  if 0 ≤ truncToInt q ∧ truncToInt q < 2 ^ max 32 t.ulongBits then some (truncToInt q).toNat
  else none

/-- The loop `while (digits-- > 0) ...` of `printFloat`, run for at most `fuel`
tests of its condition, on the running byte count `n` (a `size_t`). The result
is the final count, the writer and the number of times the body ran, or `none`
when the fuel ends before the condition fails. -/
def digitLoop (t : Target) :
    Nat → RestResponse → Nat → ℚ → Nat → Nat → Option (Nat × RestResponse × Nat)
  | 0, _, _, _, _, _ => none
  | fuel + 1, s, digits, remainder, n, iters =>
    if digits > 0 then
      let remainder := roundDouble (remainder * 10)
      let toPrint := truncToInt remainder
      let r := print_int t s toPrint
      digitLoop t fuel r.2 (digits - 1) (roundDouble (remainder - toPrint))
        (toSize t ((n : Int) + r.1)) (iters + 1)
    else some (n, s, iters)

/-- `RestResponse::printFloat` (compiled when `CONTIKI` is set); `digits` is
the `uint8_t` parameter. Both loops are run with 256 units of fuel, one more
than a `uint8_t` count can ask for. The function has no result (`none`) when a
loop runs out of fuel or when the conversion to `unsigned long` is not
defined. An `unsigned long` and an `int` convert back to `double` exactly (the
first is the integer part of a double, the second a single digit). -/
def printFloat (t : Target) (s : RestResponse) (number : Dbl) (digits : Nat) :
    Option (Nat × RestResponse) :=
  match number with
  | Dbl.nan => some (print_str t s "nan".toList)
  | Dbl.inf _ => some (print_str t s "inf".toList)
  | Dbl.fin number =>
    if number > 4294967040 then some (print_str t s "ovf".toList)
    else if number < -4294967040 then some (print_str t s "ovf".toList)
    else
      let r0 : Nat × RestResponse := if number < 0 then print_char t s '-' else (0, s)
      let n := toSize t r0.1
      let number := if number < 0 then -number else number
      match roundingLoop 256 0 digits (1 / 2) 0 with
      | none => none
      | some (rounding, _) =>
        let number := roundDouble (number + rounding)
        match toUnsignedLong t number with
        | none => none
        | some int_part =>
          let remainder := roundDouble (number - int_part)
          let r1 := print_ulong t r0.2 int_part
          let n := toSize t ((n : Int) + r1.1)
          let r2 : Nat × RestResponse :=
            if digits > 0 then print_str t r1.2 ".".toList else (0, r1.2)
          let n := toSize t ((n : Int) + r2.1)
          match digitLoop t 256 r2.2 digits remainder n 0 with
          | none => none
          | some (n, s, _) => some (n, s)

/-- `RestResponse::print(float, int)` and `RestResponse::print(double, int)`
send a `float` through the same code once it is promoted: with `CONTIKI` the
`int` precision is narrowed to the `uint8_t` parameter of `printFloat`,
otherwise the value goes to `printf` and the precision is not used. -/
def print_double (t : Target) (s : RestResponse) (d : Dbl) (digits : Int) :
    Option (Nat × RestResponse) :=
  if t.CONTIKI then printFloat t s d (digits % 256).toNat
  else some (printf t s "%lf".toList [Arg.dbl d])

/-- `RestResponse::print(float, int)`. -/
def print_float (t : Target) (s : RestResponse) (f : Dbl) (digits : Int) :
    Option (Nat × RestResponse) :=
  if t.CONTIKI then printFloat t s f (digits % 256).toNat
  else some (printf t s "%f".toList [Arg.dbl f])

end RestResponse

/-! ## Concrete targets and memories used to run the code -/

/-- A target whose chunk holds 4 bytes, with a 16-bit `size_t`, a 32-bit
`unsigned long` and the manual float renderer compiled in. -/
def chunk4 : Target :=
  { REST_MAX_CHUNK_SIZE := 4, sizeBits := 16, ulongBits := 32, CONTIKI := true,
    fmtDouble := fun _ => [], REST := fun _ _ => 0 }

/-- A target whose chunk holds 16 bytes, otherwise like `chunk4`. -/
def chunk16 : Target :=
  { REST_MAX_CHUNK_SIZE := 16, sizeBits := 16, ulongBits := 32, CONTIKI := true,
    fmtDouble := fun _ => [], REST := fun _ _ => 0 }

/-- A memory filled with `#`. -/
def blank : Nat → Char := fun _ => '#'

/-! ## Definitions the statements are written with -/

/-- The number of payload submissions in a log of engine calls. -/
def payloadSubmissions : List SinkCall → Nat
  | [] => 0
  | SinkCall.set_response_payload _ _ _ :: rest => payloadSubmissions rest + 1
  | _ :: rest => payloadSubmissions rest

/-- The writer `s2` is `s1` with `text` appended: the length grew by the length
of `text`, the new bytes are those of `text`, the earlier bytes, the log and
the offset cursor are as before. -/
def Appended (s1 s2 : RestResponse) (text : List Char) : Prop :=
  s2.payloadLength = s1.payloadLength + text.length ∧
  (∀ j, j < text.length → s2.buffer (s1.payloadLength + j) = text.getD j NUL) ∧
  (∀ i, i < s1.payloadLength → s2.buffer i = s1.buffer i) ∧
  s2.sink = s1.sink ∧ s2.offset = s1.offset

/-- The value of `rounding` after `n` more turns of the first loop of
`printFloat`, each dividing by ten in binary64. -/
def divTen (rounding : ℚ) : Nat → ℚ
  | 0 => rounding
  | n + 1 => divTen (roundDouble (rounding / 10)) n

/-- One turn of the digit loop of `printFloat` on the remainder:
`remainder *= 10.0; toPrint = int(remainder); remainder -= toPrint`, each
operation in binary64. -/
def remainderStep (r : ℚ) : ℚ :=
  roundDouble (roundDouble (r * 10) - RestResponse.truncToInt (roundDouble (r * 10)))

/-- The remainder at the start of turn `i` (counted from 0) of the digit loop
entered with the remainder `r`. -/
def remainderAt (r : ℚ) : Nat → ℚ
  | 0 => r
  | i + 1 => remainderAt (remainderStep r) i

/-- The text the digit loop of `printFloat` prints in `d` turns when entered
with the remainder `r`: turn after turn, the decimal text of
`int(remainder * 10.0)`. -/
def fracText : Nat → ℚ → List Char
  | 0, _ => []
  | d + 1, r =>
    decimalInt (RestResponse.truncToInt (roundDouble (r * 10))) ++ fracText d (remainderStep r)

/-- The magnitude `printFloat` renders for the value `x` and the precision
`d`: `|x| + rounding` in binary64, with `rounding` as its first loop leaves
it. -/
def roundedMagnitude (x : ℚ) (d : Nat) : ℚ := roundDouble (|x| + divTen (1 / 2) d)

/-- The text `printFloat` prints for a finite `x` within the guards and the
precision `d`: a '-' when `x < 0`, the integer part of the rounded magnitude,
a '.' when `d > 0`, and the text of the digit loop. -/
def renderedText (x : ℚ) (d : Nat) : List Char :=
  (if x < 0 then ['-'] else []) ++
    (Nat.toDigits 10 (RestResponse.truncToInt (roundedMagnitude x d)).toNat ++
      ((if d = 0 then [] else ['.']) ++
        fracText d (roundDouble (roundedMagnitude x d
          - ((RestResponse.truncToInt (roundedMagnitude x d)).toNat : ℚ)))))

/-! ## Conversions to `size_t` and the library copy -/

theorem toSize_natCast (t : Target) (n : Nat) (h : n < 2 ^ t.sizeBits) :
    toSize t (n : Int) = n := by
  unfold toSize
  have h2 : ((n : Int)) < (2 : Int) ^ t.sizeBits := by exact_mod_cast h
  rw [Int.emod_eq_of_lt (Int.natCast_nonneg n) h2]
  simp

theorem toSize_sub (t : Target) (c l : Nat) (hl : l ≤ c) (hc : c < 2 ^ t.sizeBits) :
    toSize t ((c : Int) - l) = c - l := by
  rw [← Nat.cast_sub hl]
  exact toSize_natCast t _ (by omega)

theorem toSize_add (t : Target) (a b : Nat) (h : a + b < 2 ^ t.sizeBits) :
    toSize t ((a : Int) + b) = a + b := by
  rw [← Nat.cast_add]
  exact toSize_natCast t _ h

theorem memcpy_inside (mem : Nat → Char) (dst : Nat) (src : List Char) (n i : Nat)
    (h1 : dst ≤ i) (h2 : i < dst + n) : memcpy mem dst src n i = src.getD (i - dst) NUL := by
  simp [memcpy, h1, h2]

theorem memcpy_outside (mem : Nat → Char) (dst : Nat) (src : List Char) (n i : Nat)
    (h : ¬ (dst ≤ i ∧ i < dst + n)) : memcpy mem dst src n i = mem i := by
  simp only [memcpy, if_neg h]

theorem memcpy_slice (mem : Nat → Char) (dst : Nat) (src : List Char) (n : Nat)
    (hn : n ≤ src.length) :
    bytesAt (memcpy mem dst src n) dst n = src.take n := by
  unfold bytesAt
  apply List.ext_getElem
  · simp [hn]
  · intro j h1 h2
    simp only [List.length_map, List.length_range] at h1
    simp only [List.getElem_map, List.getElem_range, List.getElem_take]
    rw [memcpy_inside mem dst src n (dst + j) (by omega) (by omega)]
    simp only [Nat.add_sub_cancel_left]
    rw [List.getD_eq_getElem]

namespace RestResponse

/-! ## `write` -/

theorem write_fst (t : Target) (s : RestResponse) (data : List Char) (n : Nat)
    (hl : s.payloadLength ≤ t.REST_MAX_CHUNK_SIZE)
    (hc : t.REST_MAX_CHUNK_SIZE < 2 ^ t.sizeBits) :
    (write t s data n).1 = min n (t.REST_MAX_CHUNK_SIZE - s.payloadLength) := by
  simp only [write, toSize_sub t _ _ hl hc]
  split <;> omega

theorem write_payloadLength (t : Target) (s : RestResponse) (data : List Char) (n : Nat)
    (hl : s.payloadLength ≤ t.REST_MAX_CHUNK_SIZE)
    (hc : t.REST_MAX_CHUNK_SIZE < 2 ^ t.sizeBits) :
    (write t s data n).2.payloadLength
      = s.payloadLength + min n (t.REST_MAX_CHUNK_SIZE - s.payloadLength) := by
  have h1 := write_fst t s data n hl hc
  simp only [write] at h1 ⊢
  rw [h1]
  exact toSize_add t _ _ (by omega)

theorem write_buffer (t : Target) (s : RestResponse) (data : List Char) (n : Nat)
    (hl : s.payloadLength ≤ t.REST_MAX_CHUNK_SIZE)
    (hc : t.REST_MAX_CHUNK_SIZE < 2 ^ t.sizeBits) :
    (write t s data n).2.buffer
      = memcpy s.buffer s.payloadLength data
          (min n (t.REST_MAX_CHUNK_SIZE - s.payloadLength)) := by
  have h1 := write_fst t s data n hl hc
  simp only [write] at h1 ⊢
  rw [h1]

/-- C1: on a writer whose length does not exceed the chunk size (a `size_t`
value), `write(data, n)` with `data` of `n` bytes returns exactly
`min(n, capacity - length)` and advances the length by the returned count. -/
theorem write_returns_min_and_advances (t : Target) (s : RestResponse) (data : List Char)
    (n : Nat) (_hn : data.length = n)
    (hl : s.payloadLength ≤ t.REST_MAX_CHUNK_SIZE)
    (hc : t.REST_MAX_CHUNK_SIZE < 2 ^ t.sizeBits) :
    (write t s data n).1 = min n (t.REST_MAX_CHUNK_SIZE - s.payloadLength) ∧
    (write t s data n).2.payloadLength = s.payloadLength + (write t s data n).1 := by
  rw [write_payloadLength t s data n hl hc, write_fst t s data n hl hc]
  exact ⟨rfl, rfl⟩

theorem write_returns_min_and_advances_witness :
    ("cdef".toList.length = 4 ∧
      (write chunk4 (new blank 0) "ab".toList 2).2.payloadLength ≤ chunk4.REST_MAX_CHUNK_SIZE ∧
      chunk4.REST_MAX_CHUNK_SIZE < 2 ^ chunk4.sizeBits) ∧
    (write chunk4 (write chunk4 (new blank 0) "ab".toList 2).2 "cdef".toList 4).1 = 2 ∧
    (write chunk4 (write chunk4 (new blank 0) "ab".toList 2).2 "cdef".toList 4).2.payloadLength
      = 4 :=
  ⟨by decide,
    write_returns_min_and_advances chunk4 (write chunk4 (new blank 0) "ab".toList 2).2
      "cdef".toList 4 (by decide) (by decide) (by decide)⟩

/-- C2: on a writer with length `l` not above the chunk size `c`, after
`write(d, |d|)` with `k = min(|d|, c - l)` the bytes at `[l, l + k)` are the
first `k` bytes of `d` and every byte outside `[l, l + k)` is unchanged; on an
empty writer the first `min(|d|, c)` bytes are that prefix of `d`; and with
`c = 4`, writing "ab" then "cdef" returns 2 for the second write and leaves
"abcd" in the buffer. -/
theorem write_buffer_contents :
    (∀ (t : Target) (s : RestResponse) (d : List Char),
      s.payloadLength ≤ t.REST_MAX_CHUNK_SIZE → t.REST_MAX_CHUNK_SIZE < 2 ^ t.sizeBits →
      bytesAt (write t s d d.length).2.buffer s.payloadLength
          (min d.length (t.REST_MAX_CHUNK_SIZE - s.payloadLength))
        = d.take (min d.length (t.REST_MAX_CHUNK_SIZE - s.payloadLength)) ∧
      ∀ i, ¬ (s.payloadLength ≤ i ∧
            i < s.payloadLength + min d.length (t.REST_MAX_CHUNK_SIZE - s.payloadLength)) →
        (write t s d d.length).2.buffer i = s.buffer i) ∧
    (∀ (t : Target) (buffer : Nat → Char) (offset : Int) (d : List Char),
      t.REST_MAX_CHUNK_SIZE < 2 ^ t.sizeBits →
      bytesAt (write t (new buffer offset) d d.length).2.buffer 0
          (min d.length t.REST_MAX_CHUNK_SIZE)
        = d.take (min d.length t.REST_MAX_CHUNK_SIZE)) ∧
    ((write chunk4 (write chunk4 (new blank 0) "ab".toList 2).2 "cdef".toList 4).1 = 2 ∧
      bytesAt (write chunk4 (write chunk4 (new blank 0) "ab".toList 2).2 "cdef".toList 4).2.buffer
        0 4 = "abcd".toList) := by
  have general : ∀ (t : Target) (s : RestResponse) (d : List Char),
      s.payloadLength ≤ t.REST_MAX_CHUNK_SIZE → t.REST_MAX_CHUNK_SIZE < 2 ^ t.sizeBits →
      bytesAt (write t s d d.length).2.buffer s.payloadLength
          (min d.length (t.REST_MAX_CHUNK_SIZE - s.payloadLength))
        = d.take (min d.length (t.REST_MAX_CHUNK_SIZE - s.payloadLength)) ∧
      ∀ i, ¬ (s.payloadLength ≤ i ∧
            i < s.payloadLength + min d.length (t.REST_MAX_CHUNK_SIZE - s.payloadLength)) →
        (write t s d d.length).2.buffer i = s.buffer i := by
    intro t s d hl hc
    rw [write_buffer t s d d.length hl hc]
    exact ⟨memcpy_slice _ _ _ _ (Nat.min_le_left _ _),
      fun i hi => memcpy_outside _ _ _ _ _ hi⟩
  refine ⟨general, ?_, by decide, by decide⟩
  intro t buffer offset d hc
  have h := (general t (new buffer offset) d (Nat.zero_le _) hc).1
  simpa [new] using h

theorem write_buffer_contents_witness :
    ((write chunk4 (new blank 0) "ab".toList 2).2.payloadLength ≤ chunk4.REST_MAX_CHUNK_SIZE ∧
      chunk4.REST_MAX_CHUNK_SIZE < 2 ^ chunk4.sizeBits) ∧
    bytesAt (write chunk4 (write chunk4 (new blank 0) "ab".toList 2).2 "cdef".toList
        "cdef".toList.length).2.buffer
      (write chunk4 (new blank 0) "ab".toList 2).2.payloadLength
      (min "cdef".toList.length
        (chunk4.REST_MAX_CHUNK_SIZE - (write chunk4 (new blank 0) "ab".toList 2).2.payloadLength))
      = "cdef".toList.take (min "cdef".toList.length
        (chunk4.REST_MAX_CHUNK_SIZE
          - (write chunk4 (new blank 0) "ab".toList 2).2.payloadLength)) :=
  ⟨by decide,
    (write_buffer_contents.1 chunk4 (write chunk4 (new blank 0) "ab".toList 2).2 "cdef".toList
      (by decide) (by decide)).1⟩

/-! ## `printf` -/

theorem formatText_replicate (t : Target) (n : Nat) (args : List Arg) :
    formatText t (List.replicate n 'a') args = some (List.replicate n 'a') := by
  induction n with
  | zero => simp [formatText]
  | succ k ih =>
    rw [List.replicate_succ, formatText.eq_def]
    simp only [ih]
    rfl

theorem printf_fst (t : Target) (s : RestResponse) (format : List Char) (args : List Arg)
    (text : List Char) (h : formatText t format args = some text)
    (hw : text.length < 2 ^ t.sizeBits) :
    (printf t s format args).1 = text.length := by
  simp only [printf, vsnprintf, h]
  split <;> exact toSize_natCast t _ hw

theorem printf_payloadLength (t : Target) (s : RestResponse) (format : List Char)
    (args : List Arg) (text : List Char) (h : formatText t format args = some text)
    (hw : s.payloadLength + text.length < 2 ^ t.sizeBits) :
    (printf t s format args).2.payloadLength = s.payloadLength + text.length := by
  simp only [printf, vsnprintf, h]
  split <;> exact toSize_add t _ _ hw

/-- C3 (fails on the code): from a freshly constructed writer, one `printf`
whose text is one byte longer than the chunk leaves `payloadLength` above
`REST_MAX_CHUNK_SIZE`, whatever the chunk size is. -/
theorem printf_breaks_length_bound (t : Target) (buffer : Nat → Char) (offset : Int)
    (hc : t.REST_MAX_CHUNK_SIZE + 1 < 2 ^ t.sizeBits) :
    (new buffer offset).payloadLength = 0 ∧
    ¬ (printf t (new buffer offset)
          (List.replicate (t.REST_MAX_CHUNK_SIZE + 1) 'a') []).2.payloadLength
        ≤ t.REST_MAX_CHUNK_SIZE := by
  rw [printf_payloadLength t _ _ _ _ (formatText_replicate t _ _)]
  · simp [new]
  · simpa [new] using hc

theorem printf_breaks_length_bound_witness :
    chunk4.REST_MAX_CHUNK_SIZE + 1 < 2 ^ chunk4.sizeBits ∧
    (new blank 0).payloadLength = 0 ∧
    ¬ (printf chunk4 (new blank 0) "aaaaa".toList []).2.payloadLength ≤ 4 :=
  ⟨by decide, printf_breaks_length_bound chunk4 blank 0 (by decide)⟩

/-- C4 (fails on the code): a `printf` whose text is longer than the space
left returns the length of the whole text, which is more than the space left,
and advances `payloadLength` by it, past the chunk size. -/
theorem printf_reports_whole_text_length (t : Target) (s : RestResponse)
    (format : List Char) (args : List Arg) (text : List Char)
    (h : formatText t format args = some text)
    (_hl : s.payloadLength ≤ t.REST_MAX_CHUNK_SIZE)
    (hlong : t.REST_MAX_CHUNK_SIZE - s.payloadLength < text.length)
    (hw : s.payloadLength + text.length < 2 ^ t.sizeBits) :
    (printf t s format args).1 = text.length ∧
    t.REST_MAX_CHUNK_SIZE - s.payloadLength < (printf t s format args).1 ∧
    (printf t s format args).2.payloadLength = s.payloadLength + text.length ∧
    t.REST_MAX_CHUNK_SIZE < (printf t s format args).2.payloadLength := by
  rw [printf_fst t s format args text h (by omega),
    printf_payloadLength t s format args text h hw]
  refine ⟨rfl, hlong, rfl, ?_⟩
  omega

theorem printf_reports_whole_text_length_witness :
    (write chunk4 (new blank 0) "abcd".toList 4).2.payloadLength = 4 ∧
    (print_char chunk4 (write chunk4 (new blank 0) "abcd".toList 4).2 'x').1 = 1 ∧
    (print_char chunk4 (write chunk4 (new blank 0) "abcd".toList 4).2 'x').2.payloadLength
      = 4 + 1 :=
  ⟨by decide,
    (printf_reports_whole_text_length chunk4 (write chunk4 (new blank 0) "abcd".toList 4).2
      "%c".toList [Arg.int ('x' : Char).toNat] ['x'] (by decide) (by decide) (by decide)
      (by decide)).1,
    (printf_reports_whole_text_length chunk4 (write chunk4 (new blank 0) "abcd".toList 4).2
      "%c".toList [Arg.int ('x' : Char).toNat] ['x'] (by decide) (by decide) (by decide)
      (by decide)).2.2.1⟩

/-! ## `flush` and the destructor -/

theorem payloadSubmissions_append (a b : List SinkCall) :
    payloadSubmissions (a ++ b) = payloadSubmissions a + payloadSubmissions b := by
  induction a with
  | nil => simp [payloadSubmissions]
  | cons c rest ih =>
    cases c
    case set_response_payload =>
      simp only [List.cons_append, payloadSubmissions, List.append_eq, ih]; omega
    all_goals simp only [List.cons_append, payloadSubmissions, List.append_eq, ih]

/-- C5 (fails on the code): two calls of `flush` on a fresh writer leave two
payload submissions in the log, not one. -/
theorem flush_twice_submits_twice :
    payloadSubmissions (flush (flush (new blank 0))).sink = 2 ∧
    payloadSubmissions (destroy (flush (new blank 0))).sink = 2 ∧
    ¬ payloadSubmissions (flush (flush (new blank 0))).sink = 1 := by
  decide

/-- C5 (amended): `flush` has no record of an earlier flush, so calling it
twice, or calling it and then destroying the writer, makes exactly two payload
submissions, each carrying `buffer` and the current `payloadLength`. -/
theorem flush_twice_appends_two (s : RestResponse) :
    (flush (flush s)).sink = s.sink ++
      [SinkCall.set_response_payload PayloadPtr.buffer
          (bytesAt s.buffer 0 s.payloadLength) s.payloadLength,
        SinkCall.set_response_payload PayloadPtr.buffer
          (bytesAt s.buffer 0 s.payloadLength) s.payloadLength] ∧
    (destroy (flush s)).sink = (flush (flush s)).sink ∧
    payloadSubmissions (flush (flush s)).sink = payloadSubmissions s.sink + 2 := by
  refine ⟨by simp [flush], rfl, ?_⟩
  simp [flush, payloadSubmissions_append, payloadSubmissions]

/-- C6: one `flush`, and the destruction of a writer that was not flushed,
appends exactly one payload submission to the log, carrying `buffer`, the bytes
at `[0, payloadLength)` and `payloadLength`; the buffer, the length and the
offset cursor stay as they were. -/
theorem flush_submits_once (s : RestResponse) :
    (flush s).sink = s.sink ++
      [SinkCall.set_response_payload PayloadPtr.buffer
        (bytesAt s.buffer 0 s.payloadLength) s.payloadLength] ∧
    payloadSubmissions (flush s).sink = payloadSubmissions s.sink + 1 ∧
    (flush s).buffer = s.buffer ∧ (flush s).payloadLength = s.payloadLength ∧
    (flush s).offset = s.offset ∧ destroy s = flush s := by
  refine ⟨rfl, ?_, rfl, rfl, rfl, rfl⟩
  simp [flush, payloadSubmissions_append, payloadSubmissions]

/-! ## The integer overloads -/

/-- C7 (fails on the code): on an empty writer whose chunk holds exactly the 4
bytes of the decimal text, `print(1234)` (as `int`, `unsigned int` and
`unsigned long`) returns 4 and sets the length to 4, but the bytes written are
"123" and a NUL: the last digit is not in the buffer. -/
theorem print_integer_exact_fit_drops_last_digit :
    (decimalInt 1234).length ≤ chunk4.REST_MAX_CHUNK_SIZE ∧
    ((print_int chunk4 (new blank 0) 1234).1 = 4 ∧
      (print_int chunk4 (new blank 0) 1234).2.payloadLength = 4 ∧
      bytesAt (print_int chunk4 (new blank 0) 1234).2.buffer 0 4 = ['1', '2', '3', NUL]) ∧
    ((print_uint chunk4 (new blank 0) 1234).1 = 4 ∧
      (print_uint chunk4 (new blank 0) 1234).2.payloadLength = 4 ∧
      bytesAt (print_uint chunk4 (new blank 0) 1234).2.buffer 0 4 = ['1', '2', '3', NUL]) ∧
    ((print_ulong chunk4 (new blank 0) 1234).1 = 4 ∧
      (print_ulong chunk4 (new blank 0) 1234).2.payloadLength = 4 ∧
      bytesAt (print_ulong chunk4 (new blank 0) 1234).2.buffer 0 4 = ['1', '2', '3', NUL]) := by
  decide

/-- C8 (fails on the code): the format of `print(long)` is "%l", a length
modifier with no conversion character, so for every value no decimal text is
produced: the buffer is left as it was, and the count returned and added to
the length is the conversion of -1 to `size_t`; on a 16-byte chunk with a
16-bit `size_t`, `print(5L)` returns 65535. -/
theorem print_long_writes_no_text (t : Target) (s : RestResponse) (l : Int) :
    formatText t "%l".toList [Arg.long l] = none ∧
    (print_long t s l).2.buffer = s.buffer ∧
    (print_long t s l).1 = toSize t (-1) ∧
    (print_long t s l).2.payloadLength = toSize t ((s.payloadLength : Int) + -1) ∧
    (print_long chunk16 (new blank 0) 5).1 = 65535 ∧
    bytesAt (print_long chunk16 (new blank 0) 5).2.buffer 0 2 = ['#', '#'] := by
  have h : formatText t "%l".toList [Arg.long l] = none := rfl
  refine ⟨h, ?_, ?_, ?_, by decide, by decide⟩ <;> simp only [print_long, printf, vsnprintf, h]

/-! ## The float renderer: special values -/

theorem print_str_three (t : Target) (s : RestResponse) (str : List Char)
    (hstr : strlen str = 3) (hs : s.payloadLength = 0)
    (h3 : 3 ≤ t.REST_MAX_CHUNK_SIZE) (hc : t.REST_MAX_CHUNK_SIZE < 2 ^ t.sizeBits) :
    print_str t s str
      = (3, { s with buffer := memcpy s.buffer 0 str 3, payloadLength := 3 }) := by
  have hl : s.payloadLength ≤ t.REST_MAX_CHUNK_SIZE := by omega
  have h1 := write_fst t s str 3 hl hc
  have h2 := write_payloadLength t s str 3 hl hc
  have h3 := write_buffer t s str 3 hl hc
  have hm : min 3 (t.REST_MAX_CHUNK_SIZE - s.payloadLength) = 3 := by omega
  rw [hm] at h1 h2 h3
  rw [hs] at h2 h3
  unfold print_str
  rw [hstr]
  apply Prod.ext
  · exact h1
  · have hsink : (write t s str 3).2.sink = s.sink := rfl
    have hoff : (write t s str 3).2.offset = s.offset := rfl
    cases hw : (write t s str 3).2
    rw [hw] at h2 h3 hsink hoff
    simp only at h2 h3 hsink hoff
    simp [h2, h3, hsink, hoff]

/-- C9: on an empty writer whose chunk holds at least 3 bytes, for every
precision `k`, `printFloat` of a NaN writes exactly "nan", of an infinity
exactly "inf", and of a finite value of magnitude above 4294967040 exactly
"ovf"; the call returns 3, the length becomes 3, and no byte from index 3 on
is touched. -/
theorem printFloat_special_values (t : Target) (s : RestResponse) (k : Nat)
    (hs : s.payloadLength = 0)
    (h3 : 3 ≤ t.REST_MAX_CHUNK_SIZE) (hc : t.REST_MAX_CHUNK_SIZE < 2 ^ t.sizeBits) :
    (printFloat t s Dbl.nan k
        = some (3, { s with buffer := memcpy s.buffer 0 "nan".toList 3, payloadLength := 3 }) ∧
      bytesAt (memcpy s.buffer 0 "nan".toList 3) 0 3 = "nan".toList) ∧
    (∀ negative, printFloat t s (Dbl.inf negative) k
        = some (3, { s with buffer := memcpy s.buffer 0 "inf".toList 3, payloadLength := 3 }) ∧
      bytesAt (memcpy s.buffer 0 "inf".toList 3) 0 3 = "inf".toList) ∧
    (∀ x : ℚ, 4294967040 < |x| → printFloat t s (Dbl.fin x) k
        = some (3, { s with buffer := memcpy s.buffer 0 "ovf".toList 3, payloadLength := 3 }) ∧
      bytesAt (memcpy s.buffer 0 "ovf".toList 3) 0 3 = "ovf".toList) ∧
    ∀ (str : List Char) (i : Nat), 3 ≤ i → memcpy s.buffer 0 str 3 i = s.buffer i := by
  have hb : ∀ str : List Char, str.length = 3 →
      bytesAt (memcpy s.buffer 0 str 3) 0 3 = str := by
    intro str h
    rw [memcpy_slice _ 0 str 3 (by omega), ← h, List.take_length]
  refine ⟨⟨?_, hb _ (by decide)⟩, fun negative => ⟨?_, hb _ (by decide)⟩,
    fun x hx => ⟨?_, hb _ (by decide)⟩, ?_⟩
  · simp only [printFloat]
    rw [print_str_three t s _ (by decide) hs h3 hc]
  · simp only [printFloat]
    rw [print_str_three t s _ (by decide) hs h3 hc]
  · simp only [printFloat]
    rw [print_str_three t s _ (by decide) hs h3 hc]
    rcases lt_abs.mp hx with h | h
    · rw [if_pos h]
    · have h' : x < -4294967040 := by linarith
      rw [if_pos h']
      simp
  · intro str i hi
    exact memcpy_outside _ _ _ _ _ (by omega)

theorem printFloat_special_values_witness :
    ((new blank 0).payloadLength = 0 ∧ 3 ≤ chunk4.REST_MAX_CHUNK_SIZE ∧
      chunk4.REST_MAX_CHUNK_SIZE < 2 ^ chunk4.sizeBits) ∧
    printFloat chunk4 (new blank 0) (Dbl.fin 5000000000) 2
      = some (3, { (new blank 0) with
          buffer := memcpy (new blank 0).buffer 0 "ovf".toList 3, payloadLength := 3 }) :=
  ⟨by decide,
    ((printFloat_special_values chunk4 (new blank 0) 2 (by decide) (by decide)
      (by decide)).2.2.1 5000000000 (by norm_num)).1⟩

/-! ## Appending text to the writer -/

theorem Appended.refl (s : RestResponse) : Appended s s [] :=
  ⟨rfl, fun _ h => absurd h (Nat.not_lt_zero _), fun _ _ => rfl, rfl, rfl⟩

theorem Appended.trans (s1 s2 s3 : RestResponse) (a b : List Char)
    (h1 : Appended s1 s2 a) (h2 : Appended s2 s3 b) : Appended s1 s3 (a ++ b) := by
  obtain ⟨hl1, hb1, hk1, hs1, ho1⟩ := h1
  obtain ⟨hl2, hb2, hk2, hs2, ho2⟩ := h2
  refine ⟨?_, ?_, ?_, hs2.trans hs1, ho2.trans ho1⟩
  · rw [hl2, hl1, List.length_append]; omega
  · intro j hj
    rw [List.length_append] at hj
    by_cases hja : j < a.length
    · rw [hk2 _ (by omega), hb1 j hja]
      simp [List.getD_eq_getElem?_getD, List.getElem?_append_left hja]
    · have hjb : j - a.length < b.length := by omega
      have h := hb2 (j - a.length) hjb
      rw [hl1] at h
      have e : s1.payloadLength + a.length + (j - a.length) = s1.payloadLength + j := by omega
      rw [e] at h
      rw [h]
      simp [List.getD_eq_getElem?_getD, List.getElem?_append_right (Nat.le_of_not_lt hja)]
  · intro i hi
    rw [hk2 i (by omega), hk1 i hi]

theorem Appended.bytesAt_eq (s1 s2 : RestResponse) (text : List Char)
    (h : Appended s1 s2 text) : bytesAt s2.buffer s1.payloadLength text.length = text := by
  unfold bytesAt
  apply List.ext_getElem
  · simp
  · intro j h1 h2
    simp only [List.getElem_map, List.getElem_range]
    rw [h.2.1 j h2, List.getD_eq_getElem _ _ h2]

theorem printf_appended (t : Target) (s : RestResponse) (format : List Char) (args : List Arg)
    (text : List Char) (h : formatText t format args = some text)
    (hfit : s.payloadLength + text.length < t.REST_MAX_CHUNK_SIZE)
    (hc : t.REST_MAX_CHUNK_SIZE < 2 ^ t.sizeBits) :
    (printf t s format args).1 = text.length ∧ Appended s (printf t s format args).2 text := by
  refine ⟨printf_fst t s format args text h (by omega),
    printf_payloadLength t s format args text h (by omega), ?_, ?_, rfl, rfl⟩
  · intro j hj
    simp only [printf, vsnprintf, h, toSize_sub t _ _ (show s.payloadLength ≤ _ by omega) hc]
    rw [if_neg (by omega)]
    simp only
    rw [if_pos ⟨by omega, by omega⟩]
    simp
  · intro i hi
    simp only [printf, vsnprintf, h, toSize_sub t _ _ (show s.payloadLength ≤ _ by omega) hc]
    rw [if_neg (by omega)]
    simp only
    rw [if_neg (by omega), if_neg (by omega)]

theorem print_str_appended (t : Target) (s : RestResponse) (str : List Char)
    (hstr : strlen str = str.length)
    (hfit : s.payloadLength + str.length ≤ t.REST_MAX_CHUNK_SIZE)
    (hc : t.REST_MAX_CHUNK_SIZE < 2 ^ t.sizeBits) :
    (print_str t s str).1 = str.length ∧ Appended s (print_str t s str).2 str := by
  have hl : s.payloadLength ≤ t.REST_MAX_CHUNK_SIZE := by omega
  have hm : min str.length (t.REST_MAX_CHUNK_SIZE - s.payloadLength) = str.length := by omega
  unfold print_str
  rw [hstr]
  refine ⟨?_, ?_, ?_, ?_, rfl, rfl⟩
  · rw [write_fst t s str _ hl hc, hm]
  · rw [write_payloadLength t s str _ hl hc, hm]
  · intro j hj
    rw [write_buffer t s str _ hl hc, hm, memcpy_inside _ _ _ _ _ (by omega) (by omega)]
    simp
  · intro i hi
    rw [write_buffer t s str _ hl hc, memcpy_outside _ _ _ _ _ (by omega)]

end RestResponse

/-! ## Binary64 rounding: the nearest integer -/

theorem roundHalfEven_bounds (m : ℚ) :
    Int.floor m ≤ roundHalfEven m ∧ roundHalfEven m ≤ Int.floor m + 1 := by
  unfold roundHalfEven
  split_ifs <;> constructor <;> omega

theorem roundHalfEven_intCast (k : Int) : roundHalfEven (k : ℚ) = k := by
  unfold roundHalfEven
  rw [Int.floor_intCast, sub_self, if_pos (by norm_num)]

theorem roundHalfEven_mono (m1 m2 : ℚ) (h : m1 ≤ m2) : roundHalfEven m1 ≤ roundHalfEven m2 := by
  have hf : Int.floor m1 ≤ Int.floor m2 := Int.floor_mono h
  rcases lt_or_eq_of_le hf with hlt | heq
  · have h1 := (roundHalfEven_bounds m1).2
    have h2 := (roundHalfEven_bounds m2).1
    omega
  · have hr : m1 - Int.floor m1 ≤ m2 - Int.floor m2 := by rw [heq]; linarith
    unfold roundHalfEven
    rw [heq]
    split_ifs <;> first | omega | (exfalso; linarith)

theorem roundHalfEven_le (m : ℚ) (k : Int) (h : m ≤ k) : roundHalfEven m ≤ k := by
  have := roundHalfEven_mono m k h
  rwa [roundHalfEven_intCast] at this

theorem le_roundHalfEven (m : ℚ) (k : Int) (h : (k : ℚ) ≤ m) : k ≤ roundHalfEven m := by
  have := roundHalfEven_mono k m h
  rwa [roundHalfEven_intCast] at this

/-! ## Binary64 rounding: the binary exponent -/

theorem log2Fuel_spec : ∀ (fuel n : Nat), n ≤ fuel → n ≠ 0 →
    2 ^ log2Fuel fuel n ≤ n ∧ n < 2 ^ (log2Fuel fuel n + 1) := by
  intro fuel
  induction fuel with
  | zero => intro n h h0; omega
  | succ fuel ih =>
    intro n h h0
    unfold log2Fuel
    by_cases h2 : n < 2
    · rw [if_pos h2]
      have : n = 1 := by omega
      subst this
      exact ⟨by norm_num, by norm_num⟩
    · rw [if_neg h2]
      obtain ⟨i1, i2⟩ := ih (n / 2) (by omega) (by omega)
      rw [pow_succ, pow_succ]
      constructor <;> omega

theorem ilog2_spec (n : Nat) (h : n ≠ 0) : 2 ^ ilog2 n ≤ n ∧ n < 2 ^ (ilog2 n + 1) :=
  log2Fuel_spec n n (Nat.le_refl n) h

theorem pow2_eq (e : Int) : pow2 e = (2 : ℚ) ^ e := by
  unfold pow2
  split_ifs with h
  · have he : e = (e.toNat : Int) := (Int.toNat_of_nonneg h).symm
    conv_rhs => rw [he]
    rw [zpow_natCast]
    push_cast
    rfl
  · have he : e = -((-e).toNat : Int) := by
      rw [Int.toNat_of_nonneg (by omega)]; omega
    conv_rhs => rw [he]
    rw [zpow_neg, zpow_natCast]
    push_cast
    rw [one_div]

theorem pow2_pos (e : Int) : 0 < pow2 e := by
  rw [pow2_eq]; positivity

theorem binade_spec (q : ℚ) (hq : q ≠ 0) :
    (2 : ℚ) ^ binade q ≤ |q| ∧ |q| < (2 : ℚ) ^ (binade q + 1) := by
  have hnum : q.num.natAbs ≠ 0 := by
    intro h
    exact hq (Rat.zero_of_num_zero (Int.natAbs_eq_zero.mp h))
  have hden : q.den ≠ 0 := q.den_nz
  obtain ⟨a1, a2⟩ := ilog2_spec _ hnum
  obtain ⟨b1, b2⟩ := ilog2_spec _ hden
  have habs : |q| = (q.num.natAbs : ℚ) / (q.den : ℚ) := by
    conv_lhs => rw [← Rat.num_div_den q]
    rw [abs_div, Nat.abs_cast, Nat.cast_natAbs]
    push_cast
    rfl
  have hB : (0 : ℚ) < (q.den : ℚ) := by exact_mod_cast Nat.pos_of_ne_zero hden
  have hA1 : ((2 : ℚ) ^ ilog2 q.num.natAbs) ≤ (q.num.natAbs : ℚ) := by exact_mod_cast a1
  have hA2 : (q.num.natAbs : ℚ) < (2 : ℚ) ^ ilog2 q.num.natAbs * 2 := by
    have : q.num.natAbs < 2 ^ ilog2 q.num.natAbs * 2 := by rw [← pow_succ]; exact a2
    exact_mod_cast this
  have hB1 : ((2 : ℚ) ^ ilog2 q.den) ≤ (q.den : ℚ) := by exact_mod_cast b1
  have hB2 : (q.den : ℚ) < (2 : ℚ) ^ ilog2 q.den * 2 := by
    have : q.den < 2 ^ ilog2 q.den * 2 := by rw [← pow_succ]; exact b2
    exact_mod_cast this
  have hPA : (0 : ℚ) < (2 : ℚ) ^ ilog2 q.num.natAbs := by positivity
  have hPB : (0 : ℚ) < (2 : ℚ) ^ ilog2 q.den := by positivity
  have hz : ∀ k : Int, (2 : ℚ) ^ ((ilog2 q.num.natAbs : Int) - (ilog2 q.den : Int) + k)
      = (2 : ℚ) ^ ilog2 q.num.natAbs / (2 : ℚ) ^ ilog2 q.den * (2 : ℚ) ^ k := by
    intro k
    rw [zpow_add₀ (by norm_num), zpow_sub₀ (by norm_num), zpow_natCast, zpow_natCast]
  have hz0 := hz 0
  have hz1 := hz 1
  have hzm := hz (-1)
  simp only [add_zero, zpow_zero, mul_one, zpow_one] at hz0 hz1
  rw [habs]
  unfold binade
  split_ifs with hc
  · have hc' : (2 : ℚ) ^ ilog2 q.num.natAbs * (q.den : ℚ)
        ≤ (q.num.natAbs : ℚ) * (2 : ℚ) ^ ilog2 q.den := by exact_mod_cast hc
    rw [hz0, hz1]
    constructor
    · rw [div_le_div_iff₀ hPB hB]; linarith
    · rw [div_lt_iff₀ hB, div_mul_eq_mul_div, div_mul_eq_mul_div, lt_div_iff₀ hPB]
      nlinarith
  · have hc' : (q.num.natAbs : ℚ) * (2 : ℚ) ^ ilog2 q.den
        < (2 : ℚ) ^ ilog2 q.num.natAbs * (q.den : ℚ) := by
      have := Nat.lt_of_not_le hc
      exact_mod_cast this
    have e1 : (ilog2 q.num.natAbs : Int) - (ilog2 q.den : Int) - 1
        = (ilog2 q.num.natAbs : Int) - (ilog2 q.den : Int) + (-1) := by ring
    have e2 : (ilog2 q.num.natAbs : Int) - (ilog2 q.den : Int) - 1 + 1
        = (ilog2 q.num.natAbs : Int) - (ilog2 q.den : Int) := by ring
    rw [e2, e1, hzm, hz0]
    have h21 : (2 : ℚ) ^ (-1 : Int) = 1 / 2 := by norm_num
    rw [h21]
    constructor
    · rw [div_mul_eq_mul_div, div_le_div_iff₀ hPB hB]
      nlinarith
    · rw [div_lt_div_iff₀ hB hPB]; linarith

/-! ## Binary64 rounding: form, bounds and monotonicity -/

theorem roundDouble_form (q : ℚ) (hq : 0 < q) :
    roundDouble q
        = (roundHalfEven (q / (2 : ℚ) ^ (max (binade q) (-1022) - 52)) : ℚ)
          * (2 : ℚ) ^ (max (binade q) (-1022) - 52) ∧
    0 ≤ roundHalfEven (q / (2 : ℚ) ^ (max (binade q) (-1022) - 52)) ∧
    roundHalfEven (q / (2 : ℚ) ^ (max (binade q) (-1022) - 52)) ≤ 2 ^ 53 ∧
    (-1022 ≤ binade q →
      2 ^ 52 ≤ roundHalfEven (q / (2 : ℚ) ^ (max (binade q) (-1022) - 52))) := by
  obtain ⟨b1, b2⟩ := binade_spec q (ne_of_gt hq)
  rw [abs_of_pos hq] at b1 b2
  have hu : (0 : ℚ) < (2 : ℚ) ^ (max (binade q) (-1022) - 52) := by positivity
  refine ⟨?_, ?_, ?_, ?_⟩
  · unfold roundDouble ulp
    rw [if_pos (Or.inl hq), pow2_eq]
  · apply le_roundHalfEven
    push_cast
    positivity
  · apply roundHalfEven_le
    rw [div_le_iff₀ hu]
    have h1 : (2 : ℚ) ^ (binade q + 1) ≤ (2 : ℚ) ^ (max (binade q) (-1022) + 1) :=
      zpow_le_zpow_right₀ (by norm_num) (by omega)
    have h2 : ((2 ^ 53 : Int) : ℚ) * (2 : ℚ) ^ (max (binade q) (-1022) - 52)
        = (2 : ℚ) ^ (max (binade q) (-1022) + 1) := by
      have : ((2 ^ 53 : Int) : ℚ) = (2 : ℚ) ^ (53 : Int) := by norm_num
      rw [this, ← zpow_add₀ (by norm_num)]
      congr 1
      ring
    rw [h2]
    linarith
  · intro he
    apply le_roundHalfEven
    rw [le_div_iff₀ hu]
    have h2 : ((2 ^ 52 : Int) : ℚ) * (2 : ℚ) ^ (max (binade q) (-1022) - 52)
        = (2 : ℚ) ^ (binade q) := by
      have : ((2 ^ 52 : Int) : ℚ) = (2 : ℚ) ^ (52 : Int) := by norm_num
      rw [this, ← zpow_add₀ (by norm_num), max_eq_left he]
      congr 1
      ring
    rw [h2]
    exact b1

theorem roundDouble_zero : roundDouble 0 = 0 := by
  unfold roundDouble
  rw [if_neg (by norm_num)]

theorem roundDouble_upper (q : ℚ) (hq : 0 < q) :
    roundDouble q ≤ (2 : ℚ) ^ (max (binade q) (-1022) + 1) := by
  obtain ⟨h1, _, h3, _⟩ := roundDouble_form q hq
  rw [h1]
  have hu : (0 : ℚ) < (2 : ℚ) ^ (max (binade q) (-1022) - 52) := by positivity
  have h2 : ((2 ^ 53 : Int) : ℚ) * (2 : ℚ) ^ (max (binade q) (-1022) - 52)
      = (2 : ℚ) ^ (max (binade q) (-1022) + 1) := by
    have : ((2 ^ 53 : Int) : ℚ) = (2 : ℚ) ^ (53 : Int) := by norm_num
    rw [this, ← zpow_add₀ (by norm_num)]
    congr 1
    ring
  rw [← h2]
  have h3' : (roundHalfEven (q / (2 : ℚ) ^ (max (binade q) (-1022) - 52)) : ℚ)
      ≤ ((2 ^ 53 : Int) : ℚ) := by exact_mod_cast h3
  exact mul_le_mul_of_nonneg_right h3' (le_of_lt hu)

theorem roundDouble_lower (q : ℚ) (hq : 0 < q) (he : -1022 ≤ binade q) :
    (2 : ℚ) ^ binade q ≤ roundDouble q := by
  obtain ⟨h1, _, _, h4⟩ := roundDouble_form q hq
  rw [h1]
  have hu : (0 : ℚ) < (2 : ℚ) ^ (max (binade q) (-1022) - 52) := by positivity
  have h2 : ((2 ^ 52 : Int) : ℚ) * (2 : ℚ) ^ (max (binade q) (-1022) - 52)
      = (2 : ℚ) ^ (binade q) := by
    have : ((2 ^ 52 : Int) : ℚ) = (2 : ℚ) ^ (52 : Int) := by norm_num
    rw [this, ← zpow_add₀ (by norm_num), max_eq_left he]
    congr 1
    ring
  rw [← h2]
  have h4' : ((2 ^ 52 : Int) : ℚ)
      ≤ (roundHalfEven (q / (2 : ℚ) ^ (max (binade q) (-1022) - 52)) : ℚ) := by
    exact_mod_cast h4 he
  exact mul_le_mul_of_nonneg_right h4' (le_of_lt hu)

theorem roundDouble_nonneg (q : ℚ) (hq : 0 ≤ q) : 0 ≤ roundDouble q := by
  rcases eq_or_lt_of_le hq with h | h
  · rw [← h, roundDouble_zero]
  · obtain ⟨h1, h2, _, _⟩ := roundDouble_form q h
    rw [h1]
    have : (0 : ℚ) ≤ (roundHalfEven (q / (2 : ℚ) ^ (max (binade q) (-1022) - 52)) : ℚ) := by
      exact_mod_cast h2
    positivity

theorem binade_mono (q1 q2 : ℚ) (h1 : 0 < q1) (h : q1 ≤ q2) : binade q1 ≤ binade q2 := by
  have h2 : 0 < q2 := lt_of_lt_of_le h1 h
  obtain ⟨a1, _⟩ := binade_spec q1 (ne_of_gt h1)
  obtain ⟨_, b2⟩ := binade_spec q2 (ne_of_gt h2)
  rw [abs_of_pos h1] at a1
  rw [abs_of_pos h2] at b2
  have hlt : (2 : ℚ) ^ binade q1 < (2 : ℚ) ^ (binade q2 + 1) := by linarith
  have := (zpow_lt_zpow_iff_right₀ (show (1 : ℚ) < 2 by norm_num)).mp hlt
  omega

theorem roundDouble_mono (q1 q2 : ℚ) (h0 : 0 ≤ q1) (h : q1 ≤ q2) :
    roundDouble q1 ≤ roundDouble q2 := by
  rcases eq_or_lt_of_le h0 with hz | h1
  · rw [← hz, roundDouble_zero]
    exact roundDouble_nonneg q2 (le_trans h0 h)
  · have h2 : 0 < q2 := lt_of_lt_of_le h1 h
    have hb := binade_mono q1 q2 h1 h
    by_cases hE : max (binade q1) (-1022) = max (binade q2) (-1022)
    · rw [(roundDouble_form q1 h1).1, (roundDouble_form q2 h2).1, hE]
      have hu : (0 : ℚ) < (2 : ℚ) ^ (max (binade q2) (-1022) - 52) := by positivity
      have hm := roundHalfEven_mono (q1 / (2 : ℚ) ^ (max (binade q2) (-1022) - 52))
        (q2 / (2 : ℚ) ^ (max (binade q2) (-1022) - 52))
        (div_le_div_of_nonneg_right h (le_of_lt hu))
      have hm' : (roundHalfEven (q1 / (2 : ℚ) ^ (max (binade q2) (-1022) - 52)) : ℚ)
          ≤ (roundHalfEven (q2 / (2 : ℚ) ^ (max (binade q2) (-1022) - 52)) : ℚ) := by
        exact_mod_cast hm
      exact mul_le_mul_of_nonneg_right hm' (le_of_lt hu)
    · have he2 : -1022 ≤ binade q2 := by omega
      have hlt : max (binade q1) (-1022) + 1 ≤ binade q2 := by omega
      calc roundDouble q1 ≤ (2 : ℚ) ^ (max (binade q1) (-1022) + 1) := roundDouble_upper q1 h1
        _ ≤ (2 : ℚ) ^ binade q2 := zpow_le_zpow_right₀ (by norm_num) hlt
        _ ≤ roundDouble q2 := roundDouble_lower q2 h2 he2

/-! ## Binary64 rounding: the values just below 1 and the grid above 1 -/

theorem roundDouble_lt_one (q : ℚ) (hq : 0 ≤ q) (h : roundDouble q < 1) :
    roundDouble q ≤ 1 - 1 / 2 ^ 53 := by
  rcases eq_or_lt_of_le hq with hz | hpos
  · rw [← hz, roundDouble_zero]; norm_num
  · obtain ⟨hf, hk0, hk1, _⟩ := roundDouble_form q hpos
    rcases lt_trichotomy (max (binade q) (-1022)) (-1) with hE | hE | hE
    · have h1 := roundDouble_upper q hpos
      have h2 : (2 : ℚ) ^ (max (binade q) (-1022) + 1) ≤ (2 : ℚ) ^ (-1 : Int) :=
        zpow_le_zpow_right₀ (by norm_num) (by omega)
      have h3 : (2 : ℚ) ^ (-1 : Int) = 1 / 2 := by norm_num
      rw [h3] at h2
      have : (1 : ℚ) / 2 ≤ 1 - 1 / 2 ^ 53 := by norm_num
      linarith
    · rw [hE] at hf hk1
      have hu : (2 : ℚ) ^ ((-1 : Int) - 52) = 1 / 2 ^ 53 := by norm_num
      generalize roundHalfEven (q / (2 : ℚ) ^ ((-1 : Int) - 52)) = k at hf hk1
      rw [hu] at hf
      rw [hf] at h ⊢
      have hlt : (k : ℚ) < 2 ^ 53 := by
        rw [mul_one_div, div_lt_one (by positivity)] at h
        exact h
      have hlt' : k < 2 ^ 53 := by exact_mod_cast hlt
      have hle : (k : ℚ) ≤ 2 ^ 53 - 1 := by
        have : k ≤ 2 ^ 53 - 1 := by omega
        exact_mod_cast this
      rw [mul_one_div, div_le_iff₀ (by positivity)]
      have e : ((1 : ℚ) - 1 / 2 ^ 53) * 2 ^ 53 = 2 ^ 53 - 1 := by norm_num
      rw [e]
      exact hle
    · have he : -1022 ≤ binade q := by omega
      have hb : 0 ≤ binade q := by omega
      have h1 := roundDouble_lower q hpos he
      have h2 : (1 : ℚ) ≤ (2 : ℚ) ^ binade q := one_le_zpow₀ (by norm_num) hb
      linarith

theorem roundDouble_grid (q : ℚ) (hq : 0 ≤ q) (h : 1 ≤ roundDouble q) :
    ∃ k : Int, roundDouble q = (k : ℚ) / 2 ^ 52 := by
  rcases eq_or_lt_of_le hq with hz | hpos
  · rw [← hz, roundDouble_zero] at h; norm_num at h
  · obtain ⟨hf, _, _, _⟩ := roundDouble_form q hpos
    by_cases hE : 0 ≤ max (binade q) (-1022)
    · refine ⟨roundHalfEven (q / (2 : ℚ) ^ (max (binade q) (-1022) - 52))
        * 2 ^ (max (binade q) (-1022)).toNat, ?_⟩
      rw [hf]
      have e1 : (2 : ℚ) ^ (max (binade q) (-1022) - 52)
          = (2 : ℚ) ^ (max (binade q) (-1022)).toNat / 2 ^ 52 := by
        rw [zpow_sub₀ (by norm_num)]
        congr 1
        · conv_lhs => rw [← Int.toNat_of_nonneg hE]
          rw [zpow_natCast]
        · norm_num
      rw [e1]
      push_cast
      ring
    · have h1 := roundDouble_upper q hpos
      have h2 : (2 : ℚ) ^ (max (binade q) (-1022) + 1) ≤ (2 : ℚ) ^ (0 : Int) :=
        zpow_le_zpow_right₀ (by norm_num) (by omega)
      rw [zpow_zero] at h2
      refine ⟨2 ^ 52, ?_⟩
      have : roundDouble q = 1 := le_antisymm (le_trans h1 h2) h
      rw [this]
      norm_num

theorem roundDouble_fract_le (q : ℚ) (hq : 0 ≤ q) :
    roundDouble q - (Int.floor (roundDouble q) : ℚ) ≤ 1 - 1 / 2 ^ 53 := by
  have hv0 := roundDouble_nonneg q hq
  by_cases h1 : roundDouble q < 1
  · have hfl : Int.floor (roundDouble q) = 0 := by
      rw [Int.floor_eq_iff]; constructor <;> simp [hv0, h1]
    rw [hfl]
    simpa using roundDouble_lt_one q hq h1
  · obtain ⟨k, hk⟩ := roundDouble_grid q hq (not_lt.mp h1)
    have hlt : roundDouble q - (Int.floor (roundDouble q) : ℚ) < 1 := by
      have := Int.lt_floor_add_one (roundDouble q); linarith
    have hj : roundDouble q - (Int.floor (roundDouble q) : ℚ)
        = ((k - Int.floor (roundDouble q) * 2 ^ 52 : Int) : ℚ) / 2 ^ 52 := by
      rw [hk]
      push_cast
      field_simp
      ring
    rw [hj] at hlt ⊢
    rw [div_lt_one (by positivity)] at hlt
    have hlt' : k - Int.floor ((k : ℚ) / 2 ^ 52) * 2 ^ 52 < 2 ^ 52 := by
      rw [hk] at hlt; exact_mod_cast hlt
    rw [hk]
    have hle : ((k - Int.floor ((k : ℚ) / 2 ^ 52) * 2 ^ 52 : Int) : ℚ) ≤ 2 ^ 52 - 1 := by
      have : k - Int.floor ((k : ℚ) / 2 ^ 52) * 2 ^ 52 ≤ 2 ^ 52 - 1 := by omega
      exact_mod_cast this
    rw [div_le_iff₀ (by positivity)]
    have e : ((1 : ℚ) - 1 / 2 ^ 53) * 2 ^ 52 = 2 ^ 52 - 1 / 2 := by norm_num
    rw [e]
    linarith

namespace RestResponse

/-! ## The loops of the float renderer -/

theorem roundingLoop_eq (d : Nat) (hd : d ≤ 255) :
    ∀ (fuel i : Nat) (r : ℚ) (k : Nat), i ≤ d → d - i < fuel →
      roundingLoop fuel i d r k = some (divTen r (d - i), k + (d - i)) := by
  intro fuel
  induction fuel with
  | zero => intro i r k _ h; omega
  | succ fuel ih =>
    intro i r k hi hf
    unfold roundingLoop
    by_cases h : i < d
    · rw [if_pos h, Nat.mod_eq_of_lt (by omega),
        ih (i + 1) (roundDouble (r / 10)) (k + 1) (by omega) (by omega)]
      have e : d - i = (d - (i + 1)) + 1 := by omega
      rw [e]
      simp only [divTen, Option.some.injEq, Prod.mk.injEq, true_and]
      omega
    · rw [if_neg h]
      have e : d - i = 0 := by omega
      simp [e, divTen]

theorem divTen_bounds : ∀ (n : Nat) (r : ℚ), 0 ≤ r → r ≤ 1 / 2 →
    0 ≤ divTen r n ∧ divTen r n ≤ 1 / 2 := by
  intro n
  induction n with
  | zero => intro r h0 h1; exact ⟨h0, h1⟩
  | succ n ih =>
    intro r h0 h1
    have ha : (0 : ℚ) ≤ r / 10 := by positivity
    have hb : r / 10 ≤ 1 / 2 := by linarith
    have hhalf : roundDouble (1 / 2) ≤ 1 / 2 := by with_unfolding_all decide
    exact ih _ (roundDouble_nonneg _ ha)
      (le_trans (roundDouble_mono _ _ ha hb) hhalf)

theorem roundedMagnitude_bounds (x : ℚ) (d : Nat) (hx : |x| ≤ 4294967040) :
    0 ≤ roundedMagnitude x d ∧ roundedMagnitude x d ≤ 4294967040 + 1 / 2 := by
  obtain ⟨h0, h1⟩ := divTen_bounds d (1 / 2) (by norm_num) (le_refl _)
  have ha : (0 : ℚ) ≤ |x| + divTen (1 / 2) d := by
    have := abs_nonneg x; linarith
  have htop : roundDouble (4294967040 + 1 / 2) ≤ 4294967040 + 1 / 2 := by
    with_unfolding_all decide
  exact ⟨roundDouble_nonneg _ ha,
    le_trans (roundDouble_mono _ _ ha (by linarith)) htop⟩

theorem truncToInt_of_nonneg (q : ℚ) (h : 0 ≤ q) : truncToInt q = (Nat.floor q : Int) := by
  unfold truncToInt
  rw [if_pos h]
  exact (Int.natCast_floor_eq_floor h).symm

theorem truncToInt_floor (q : ℚ) (h : 0 ≤ q) : truncToInt q = Int.floor q := by
  unfold truncToInt
  rw [if_pos h]

theorem toUnsignedLong_roundedMagnitude (t : Target) (x : ℚ) (d : Nat)
    (hx : |x| ≤ 4294967040) :
    toUnsignedLong t (roundedMagnitude x d) = some (truncToInt (roundedMagnitude x d)).toNat ∧
    (truncToInt (roundedMagnitude x d)).toNat < 2 ^ 32 ∧
    ((truncToInt (roundedMagnitude x d)).toNat : ℚ) = Int.floor (roundedMagnitude x d) := by
  obtain ⟨h0, h1⟩ := roundedMagnitude_bounds x d hx
  have htr := truncToInt_of_nonneg _ h0
  have hlt : Nat.floor (roundedMagnitude x d) < 2 ^ 32 := by
    rw [Nat.floor_lt h0]
    norm_num
    linarith
  have hpow : (2 : Int) ^ 32 ≤ 2 ^ max 32 t.ulongBits :=
    pow_le_pow_right₀ (by norm_num) (le_max_left _ _)
  refine ⟨?_, ?_, ?_⟩
  · unfold toUnsignedLong
    rw [if_pos]
    rw [htr]
    constructor
    · exact Int.natCast_nonneg _
    · have : ((Nat.floor (roundedMagnitude x d) : Nat) : Int) < 2 ^ 32 := by exact_mod_cast hlt
      omega
  · rw [htr, Int.toNat_natCast]; exact hlt
  · rw [htr, Int.toNat_natCast, ← Int.natCast_floor_eq_floor h0]
    simp

theorem toDigits_of_lt_ten (n : Nat) (h : n < 10) : Nat.toDigits 10 n = [Nat.digitChar n] := by
  have h0 : n / 10 = 0 := Nat.div_eq_of_lt h
  simp [Nat.toDigits, Nat.toDigitsCore, h0, Nat.mod_eq_of_lt h]

theorem formatText_int (t : Target) (v : Int) :
    formatText t "%d".toList [Arg.int v] = some (decimalInt v) := by
  have h : formatText t "%d".toList [Arg.int v] = some (decimalInt v ++ []) := rfl
  rw [h, List.append_nil]

theorem formatText_ulong (t : Target) (u : Nat) :
    formatText t "%lu".toList [Arg.ulong u] = some (Nat.toDigits 10 u) := by
  have h : formatText t "%lu".toList [Arg.ulong u] = some (Nat.toDigits 10 u ++ []) := rfl
  rw [h, List.append_nil]

theorem formatText_uint (t : Target) (u : Nat) :
    formatText t "%u".toList [Arg.uint u] = some (Nat.toDigits 10 u) := by
  have h : formatText t "%u".toList [Arg.uint u] = some (Nat.toDigits 10 u ++ []) := rfl
  rw [h, List.append_nil]

theorem decimalInt_digit (n : Nat) (h : n < 10) : decimalInt (n : Int) = [Nat.digitChar n] := by
  unfold decimalInt
  rw [if_neg (by omega)]
  simpa using toDigits_of_lt_ten n h

theorem digitLoop_eq (t : Target) (hc : t.REST_MAX_CHUNK_SIZE < 2 ^ t.sizeBits) :
    ∀ (fuel d : Nat) (s : RestResponse) (r : ℚ) (n k : Nat),
      d < fuel → s.payloadLength + (fracText d r).length < t.REST_MAX_CHUNK_SIZE →
      n + (fracText d r).length < 2 ^ t.sizeBits →
      ∃ s2, digitLoop t fuel s d r n k = some (n + (fracText d r).length, s2, k + d) ∧
        Appended s s2 (fracText d r) := by
  intro fuel
  induction fuel with
  | zero => intro d s r n k h; omega
  | succ fuel ih =>
    intro d s r n k hf hfit hn
    unfold digitLoop
    cases d with
    | zero =>
      refine ⟨s, ?_, Appended.refl s⟩
      simp [fracText]
    | succ d =>
      rw [if_pos (Nat.succ_pos d)]
      simp only [fracText, List.length_append] at hfit hn
      have hp := printf_appended t s "%d".toList [Arg.int (truncToInt (roundDouble (r * 10)))]
        (decimalInt (truncToInt (roundDouble (r * 10)))) (formatText_int t _) (by omega) hc
      obtain ⟨hp1, hp2⟩ := hp
      have hlen : (print_int t s (truncToInt (roundDouble (r * 10)))).2.payloadLength
          = s.payloadLength + (decimalInt (truncToInt (roundDouble (r * 10)))).length := hp2.1
      obtain ⟨s2, hs2, ha2⟩ := ih d (print_int t s (truncToInt (roundDouble (r * 10)))).2
        (remainderStep r) (n + (decimalInt (truncToInt (roundDouble (r * 10)))).length) (k + 1)
        (by omega) (by rw [hlen]; omega) (by omega)
      refine ⟨s2, ?_, ?_⟩
      · simp only [Nat.add_sub_cancel]
        have e1 : (print_int t s (truncToInt (roundDouble (r * 10)))).1
            = (decimalInt (truncToInt (roundDouble (r * 10)))).length := hp1
        rw [e1]
        have e2 := toSize_add t n (decimalInt (truncToInt (roundDouble (r * 10)))).length
          (by omega)
        rw [e2]
        have e3 : roundDouble (roundDouble (r * 10) - ↑(truncToInt (roundDouble (r * 10))))
            = remainderStep r := rfl
        rw [e3, hs2]
        simp only [fracText, List.length_append, Option.some.injEq, Prod.mk.injEq, true_and]
        omega
      · simp only [fracText]
        exact Appended.trans s _ s2 _ _ hp2 ha2

theorem digitLoop_total (t : Target) :
    ∀ (fuel d : Nat) (s : RestResponse) (r : ℚ) (n k : Nat), d < fuel →
      ∃ n2 s2, digitLoop t fuel s d r n k = some (n2, s2, k + d) ∧
        s2.offset = s.offset ∧ s2.sink = s.sink := by
  intro fuel
  induction fuel with
  | zero => intro d s r n k h; omega
  | succ fuel ih =>
    intro d s r n k hf
    unfold digitLoop
    cases d with
    | zero => exact ⟨n, s, by simp, rfl, rfl⟩
    | succ d =>
      rw [if_pos (Nat.succ_pos d)]
      obtain ⟨n2, s2, h1, h2, h3⟩ := ih d (print_int t s (truncToInt (roundDouble (r * 10)))).2
        (roundDouble (roundDouble (r * 10) - truncToInt (roundDouble (r * 10))))
        (toSize t ((n : Int) + (print_int t s (truncToInt (roundDouble (r * 10)))).1)) (k + 1)
        (by omega)
      refine ⟨n2, s2, ?_, h2, h3⟩
      simp only [Nat.add_sub_cancel]
      rw [h1]
      simp only [Option.some.injEq, Prod.mk.injEq, true_and]
      omega

/-! ## The float renderer returns, and what it appends -/

theorem magnitude_eq_abs (x : ℚ) : (if x < 0 then -x else x) = |x| := by
  split_ifs with h
  · exact (abs_of_neg h).symm
  · exact (abs_of_nonneg (not_lt.mp h)).symm

theorem printFloat_total (t : Target) (s : RestResponse) (number : Dbl) (d : Nat)
    (hd : d ≤ 255) :
    ∃ r, printFloat t s number d = some r ∧ r.2.offset = s.offset ∧ r.2.sink = s.sink := by
  cases number with
  | nan => exact ⟨_, rfl, rfl, rfl⟩
  | inf b => exact ⟨_, rfl, rfl, rfl⟩
  | fin x =>
    simp only [printFloat]
    by_cases h1 : x > 4294967040
    · rw [if_pos h1]; exact ⟨_, rfl, rfl, rfl⟩
    · rw [if_neg h1]
      by_cases h2 : x < -4294967040
      · rw [if_pos h2]; exact ⟨_, rfl, rfl, rfl⟩
      · have hx : |x| ≤ 4294967040 := abs_le.mpr ⟨not_lt.mp h2, not_lt.mp h1⟩
        rw [if_neg h2, roundingLoop_eq d hd 256 0 (1 / 2) 0 (Nat.zero_le _) (by omega)]
        simp only [Nat.sub_zero, magnitude_eq_abs]
        have hm : roundDouble (|x| + divTen (1 / 2) d) = roundedMagnitude x d := rfl
        rw [hm, (toUnsignedLong_roundedMagnitude t x d hx).1]
        simp only
        have key : ∀ (s1 : RestResponse) (r : ℚ) (n : Nat), s1.offset = s.offset →
            s1.sink = s.sink →
            ∃ res, (match digitLoop t 256 s1 d r n 0 with
              | none => none
              | some (n, s, _) => some (n, s)) = some res ∧
              res.2.offset = s.offset ∧ res.2.sink = s.sink := by
          intro s1 r n ho hs
          obtain ⟨n2, s2, e, e1, e2⟩ := digitLoop_total t 256 d s1 r n 0 (by omega)
          rw [e]
          exact ⟨(n2, s2), rfl, e1.trans ho, e2.trans hs⟩
        apply key
        · split_ifs <;> rfl
        · split_ifs <;> rfl

theorem printFloat_appends_renderedText (t : Target) (s : RestResponse) (x : ℚ) (d : Nat)
    (hd : d ≤ 255) (hx : |x| ≤ 4294967040)
    (hfit : s.payloadLength + (renderedText x d).length < t.REST_MAX_CHUNK_SIZE)
    (hc : t.REST_MAX_CHUNK_SIZE < 2 ^ t.sizeBits) :
    ∃ s2, printFloat t s (Dbl.fin x) d = some ((renderedText x d).length, s2) ∧
      Appended s s2 (renderedText x d) := by
  obtain ⟨hlo, hhi⟩ := abs_le.mp hx
  have hng : ¬ x > 4294967040 := not_lt.mpr hhi
  have hnl : ¬ x < -4294967040 := not_lt.mpr hlo
  have hm : roundDouble (|x| + divTen (1 / 2) d) = roundedMagnitude x d := rfl
  simp only [printFloat, if_neg hng, if_neg hnl,
    roundingLoop_eq d hd 256 0 (1 / 2) 0 (Nat.zero_le _) (by omega), Nat.sub_zero,
    magnitude_eq_abs, hm, (toUnsignedLong_roundedMagnitude t x d hx).1]
  -- the text, piece by piece
  have hT : renderedText x d = (if x < 0 then ['-'] else []) ++
    (Nat.toDigits 10 (truncToInt (roundedMagnitude x d)).toNat ++
      ((if d = 0 then [] else ['.']) ++
        fracText d (roundDouble (roundedMagnitude x d
          - ((truncToInt (roundedMagnitude x d)).toNat : ℚ))))) := rfl
  have hTl := congrArg List.length hT
  simp only [List.length_append] at hTl
  generalize renderedText x d = T at hT hTl hfit ⊢
  -- the sign
  have h0 : (if x < 0 then print_char t s '-' else (0, s)).1
        = (if x < 0 then ['-'] else ([] : List Char)).length ∧
      Appended s (if x < 0 then print_char t s '-' else (0, s)).2
        (if x < 0 then ['-'] else []) := by
    by_cases h : x < 0
    · simp only [if_pos h] at hTl ⊢
      exact printf_appended t s "%c".toList [Arg.int ('-' : Char).toNat] ['-'] (by rfl)
        (by simp only [List.length_singleton] at hTl ⊢; omega) hc
    · simp only [if_neg h]
      exact ⟨rfl, Appended.refl s⟩
  generalize (if x < 0 then print_char t s '-' else (0, s)) = r0 at h0 ⊢
  generalize (if x < 0 then ['-'] else ([] : List Char)) = sign at h0 hT hTl
  obtain ⟨h01, h02⟩ := h0
  -- the integer part
  have h1 := printf_appended t r0.2 "%lu".toList
    [Arg.ulong (truncToInt (roundedMagnitude x d)).toNat] _ (formatText_ulong t _)
    (by rw [h02.1]; omega) hc
  change (print_ulong t r0.2 _).1 = _ ∧ Appended r0.2 (print_ulong t r0.2 _).2 _ at h1
  generalize print_ulong t r0.2 (truncToInt (roundedMagnitude x d)).toNat = r1 at h1 ⊢
  generalize Nat.toDigits 10 (truncToInt (roundedMagnitude x d)).toNat = ipart at h1 hT hTl
  obtain ⟨h11, h12⟩ := h1
  -- the decimal point
  have h2 : (if d > 0 then print_str t r1.2 ".".toList else (0, r1.2)).1
        = (if d = 0 then [] else ['.'] : List Char).length ∧
      Appended r1.2 (if d > 0 then print_str t r1.2 ".".toList else (0, r1.2)).2
        (if d = 0 then [] else ['.']) := by
    by_cases h : d = 0
    · subst h
      simp only [gt_iff_lt, lt_self_iff_false, if_false, if_true]
      exact ⟨rfl, Appended.refl r1.2⟩
    · rw [if_pos (Nat.pos_of_ne_zero h), if_neg h]
      have hp1 : (if d = 0 then [] else ['.'] : List Char).length = 1 := by rw [if_neg h]; rfl
      rw [hp1] at hTl
      have hfit1 : r1.2.payloadLength + ".".toList.length ≤ t.REST_MAX_CHUNK_SIZE := by
        have e : ".".toList.length = 1 := rfl
        rw [e, h12.1, h02.1]; omega
      exact print_str_appended t r1.2 ".".toList (by decide) hfit1 hc
  generalize (if d > 0 then print_str t r1.2 ".".toList else (0, r1.2)) = r2 at h2 ⊢
  generalize (if d = 0 then [] else ['.'] : List Char) = point at h2 hT hTl
  obtain ⟨h21, h22⟩ := h2
  -- the digits
  have hn : toSize t ((toSize t ((toSize t (r0.1 : Int) : Nat) + (r1.1 : Int)) : Nat)
      + (r2.1 : Int)) = sign.length + ipart.length + point.length := by
    rw [h01, h11, h21, toSize_natCast t sign.length (by omega),
      toSize_add t sign.length ipart.length (by omega),
      toSize_add t (sign.length + ipart.length) point.length (by omega)]
  rw [hn]
  obtain ⟨s2, hs2, ha2⟩ := digitLoop_eq t hc 256 d r2.2
    (roundDouble (roundedMagnitude x d - ((truncToInt (roundedMagnitude x d)).toNat : ℚ)))
    (sign.length + ipart.length + point.length) 0 (by omega)
    (by rw [h22.1, h12.1, h02.1]; omega) (by omega)
  refine ⟨s2, ?_, ?_⟩
  · rw [hs2]
    simp only [Option.some.injEq, Prod.mk.injEq, and_true]
    omega
  · rw [hT]
    exact Appended.trans _ _ _ _ _ h02 (Appended.trans _ _ _ _ _ h12
      (Appended.trans _ _ _ _ _ h22 ha2))

/-! ## Block control and the frame of each operation -/

/-- C11: when `v + n` is within the `int32_t` range, `blockAppend(n)` sets a
cursor at `v` to `v + n` (10 for `blockAppend(10)` on a cursor at 0);
`blockComplete` sets the cursor to -1 from any value; `getOffset` returns the
cursor, so after `blockComplete` it returns -1. -/
theorem block_control (s : RestResponse) (n : Int)
    (hlo : -2 ^ 31 ≤ s.offset + n) (hhi : s.offset + n < 2 ^ 31) :
    (blockAppend s n).offset = s.offset + n ∧
    getOffset (blockAppend s n) = s.offset + n ∧
    (blockAppend (new blank 0) 10).offset = 10 ∧
    (blockComplete s).offset = -1 ∧
    getOffset s = s.offset ∧
    getOffset (blockComplete s) = -1 := by
  have h : (blockAppend s n).offset = s.offset + n := by
    simp only [blockAppend, toInt32]
    rw [Int.emod_eq_of_lt (by omega) (by omega)]
    omega
  exact ⟨h, h, by decide, rfl, rfl, rfl⟩

theorem block_control_witness :
    ((-2 : Int) ^ 31 ≤ (new blank 0).offset + 10 ∧ (new blank 0).offset + 10 < (2 : Int) ^ 31) ∧
    (blockAppend (new blank 0) 10).offset = (new blank 0).offset + 10 ∧
    getOffset (blockComplete (blockAppend (new blank 0) 10)) = -1 :=
  ⟨by decide, (block_control (new blank 0) 10 (by decide) (by decide)).1,
    (block_control (blockAppend (new blank 0) 10) 0 (by decide) (by decide)).2.2.2.2.2⟩

theorem narrowed_le (digits : Int) : (digits % 256).toNat ≤ 255 := by
  have h1 := Int.emod_nonneg digits (show (256 : Int) ≠ 0 by decide)
  have h2 := Int.emod_lt_of_pos digits (show (0 : Int) < 256 by decide)
  omega

theorem print_double_total (t : Target) (s : RestResponse) (number : Dbl) (digits : Int) :
    ∃ r, print_double t s number digits = some r ∧ r.2.offset = s.offset := by
  unfold print_double
  split
  · obtain ⟨r, h1, h2, _⟩ := printFloat_total t s number _ (narrowed_le digits)
    exact ⟨r, h1, h2⟩
  · exact ⟨_, rfl, rfl⟩

theorem print_float_total (t : Target) (s : RestResponse) (number : Dbl) (digits : Int) :
    ∃ r, print_float t s number digits = some r ∧ r.2.offset = s.offset := by
  unfold print_float
  split
  · obtain ⟨r, h1, h2, _⟩ := printFloat_total t s number _ (narrowed_le digits)
    exact ⟨r, h1, h2⟩
  · exact ⟨_, rfl, rfl⟩

/-- C12: the offset cursor is left as it was by the constructor, `write`,
every `print` overload, `printf`, `printFloat` (which returns for every
`uint8_t` precision), `flush`, the destructor, `setPayload`,
`setPayloadLength` and the header and status setters; and `blockAppend` and
`blockComplete` leave the buffer, the length and the log of engine calls as
they were (`getOffset` only reads the cursor). The cursor's storage is taken
to be apart from the memory behind `buffer`. -/
theorem offset_cursor_separation (t : Target) (s : RestResponse) :
    (∀ buffer offset, (new buffer offset).offset = offset) ∧
    (∀ data n, (write t s data n).2.offset = s.offset) ∧
    (∀ format args, (printf t s format args).2.offset = s.offset) ∧
    (∀ c, (print_char t s c).2.offset = s.offset) ∧
    (∀ i, (print_int t s i).2.offset = s.offset) ∧
    (∀ u, (print_uint t s u).2.offset = s.offset) ∧
    (∀ l, (print_long t s l).2.offset = s.offset) ∧
    (∀ u, (print_ulong t s u).2.offset = s.offset) ∧
    (∀ str, (print_str t s str).2.offset = s.offset) ∧
    (∀ number digits, ∃ r, print_float t s number digits = some r ∧ r.2.offset = s.offset) ∧
    (∀ number digits, ∃ r, print_double t s number digits = some r ∧ r.2.offset = s.offset) ∧
    (∀ number d, d ≤ 255 →
      ∃ r, printFloat t s number d = some r ∧ r.2.offset = s.offset) ∧
    (flush s).offset = s.offset ∧ (destroy s).offset = s.offset ∧
    (∀ payload n, (setPayload t s payload n).2.offset = s.offset) ∧
    (∀ n, (setPayloadLength s n).offset = s.offset) ∧
    (∀ code, (setStatusCode t s code).2.offset = s.offset) ∧
    (∀ contentType, (setContentType t s contentType).2.offset = s.offset) ∧
    (∀ age, (setMaxAge t s age).2.offset = s.offset) ∧
    (∀ etag n, (setETag t s etag n).2.offset = s.offset) ∧
    (∀ location, (setLocation t s location).2.offset = s.offset) ∧
    (∀ n, (blockAppend s n).buffer = s.buffer ∧
      (blockAppend s n).payloadLength = s.payloadLength ∧ (blockAppend s n).sink = s.sink) ∧
    ((blockComplete s).buffer = s.buffer ∧
      (blockComplete s).payloadLength = s.payloadLength ∧ (blockComplete s).sink = s.sink) ∧
    getOffset s = s.offset := by
  refine ⟨fun _ _ => rfl, fun _ _ => rfl, fun _ _ => rfl, fun _ => rfl, fun _ => rfl,
    fun _ => rfl, fun _ => rfl, fun _ => rfl, fun _ => rfl, print_float_total t s,
    print_double_total t s, ?_, rfl, rfl, fun _ _ => rfl, fun _ => rfl, fun _ => rfl,
    fun _ => rfl, fun _ => rfl, fun _ _ => rfl, fun _ => rfl, fun _ => ⟨rfl, rfl, rfl⟩,
    ⟨rfl, rfl, rfl⟩, rfl⟩
  intro number d hd
  obtain ⟨r, h1, h2, _⟩ := printFloat_total t s number d hd
  exact ⟨r, h1, h2⟩

/-- C13: `setPayloadLength(n)` sets the length to `n` and leaves the buffer,
the offset cursor and the log of engine calls as they were; `setPayload(data,
n)` sets the length to `n`, appends exactly one submission of the caller's
`data` with `n` to the log, returns what the engine returned for that call,
and leaves the buffer and the offset cursor as they were. -/
theorem setPayload_and_setPayloadLength (t : Target) (s : RestResponse) (data : List Char)
    (n : Nat) :
    ((setPayloadLength s n).payloadLength = n ∧ (setPayloadLength s n).buffer = s.buffer ∧
      (setPayloadLength s n).offset = s.offset ∧ (setPayloadLength s n).sink = s.sink) ∧
    ((setPayload t s data n).2.payloadLength = n ∧
      (setPayload t s data n).2.sink
        = s.sink ++ [SinkCall.set_response_payload PayloadPtr.caller data n] ∧
      payloadSubmissions (setPayload t s data n).2.sink = payloadSubmissions s.sink + 1 ∧
      (setPayload t s data n).1
        = t.REST s.sink (SinkCall.set_response_payload PayloadPtr.caller data n) ∧
      (setPayload t s data n).2.buffer = s.buffer ∧
      (setPayload t s data n).2.offset = s.offset) := by
  refine ⟨⟨rfl, rfl, rfl, rfl⟩, rfl, rfl, ?_, rfl, rfl, rfl⟩
  simp [setPayload, setPayloadLength, payloadSubmissions_append, payloadSubmissions]

/-! ## The region `printf` and `write` store into -/

/-- C16: on a writer with length `l` not above the chunk size `c`, `printf`
hands the formatter the size bound `c - l` and the destination `buffer + l`,
and every byte at an index outside `[l, c)` is left as it was: the bytes at
`[0, l)` are kept and nothing is stored at or after `c`. -/
theorem printf_stores_only_in_remaining_region (t : Target) (s : RestResponse)
    (format : List Char) (args : List Arg)
    (hl : s.payloadLength ≤ t.REST_MAX_CHUNK_SIZE)
    (hc : t.REST_MAX_CHUNK_SIZE < 2 ^ t.sizeBits) :
    (printf t s format args).2.buffer
      = (vsnprintf t s.buffer s.payloadLength (t.REST_MAX_CHUNK_SIZE - s.payloadLength)
          format args).2 ∧
    (∀ i, i < s.payloadLength → (printf t s format args).2.buffer i = s.buffer i) ∧
    (∀ i, t.REST_MAX_CHUNK_SIZE ≤ i → (printf t s format args).2.buffer i = s.buffer i) := by
  have hb : (printf t s format args).2.buffer
      = (vsnprintf t s.buffer s.payloadLength (t.REST_MAX_CHUNK_SIZE - s.payloadLength)
          format args).2 := by
    simp only [printf, toSize_sub t _ _ hl hc]
  have key : ∀ i, ¬ (s.payloadLength ≤ i ∧ i < t.REST_MAX_CHUNK_SIZE) →
      (vsnprintf t s.buffer s.payloadLength (t.REST_MAX_CHUNK_SIZE - s.payloadLength)
          format args).2 i = s.buffer i := by
    intro i hi
    unfold vsnprintf
    cases formatText t format args with
    | none => rfl
    | some text =>
      simp only
      by_cases h0 : t.REST_MAX_CHUNK_SIZE - s.payloadLength = 0
      · rw [if_pos h0]
      · rw [if_neg h0]
        simp only
        rw [if_neg (by omega), if_neg (by omega)]
  rw [hb]
  exact ⟨rfl, fun i hi => key i (by omega), fun i hi => key i (by omega)⟩

theorem printf_stores_only_in_remaining_region_witness :
    ((write chunk4 (new blank 0) "ab".toList 2).2.payloadLength ≤ chunk4.REST_MAX_CHUNK_SIZE ∧
      chunk4.REST_MAX_CHUNK_SIZE < 2 ^ chunk4.sizeBits) ∧
    bytesAt (print_int chunk4 (write chunk4 (new blank 0) "ab".toList 2).2 12345).2.buffer 0 6
      = ['a', 'b', '1', NUL, '#', '#'] ∧
    ∀ i, chunk4.REST_MAX_CHUNK_SIZE ≤ i →
      (printf chunk4 (write chunk4 (new blank 0) "ab".toList 2).2 "%d".toList
        [Arg.int 12345]).2.buffer i = (write chunk4 (new blank 0) "ab".toList 2).2.buffer i :=
  ⟨by decide, by decide,
    (printf_stores_only_in_remaining_region chunk4 (write chunk4 (new blank 0) "ab".toList 2).2
      "%d".toList [Arg.int 12345] (by decide) (by decide)).2.2⟩

/-- C17 (fails on the code): on a writer whose length is above the chunk size,
the `size_t` difference `REST_MAX_CHUNK_SIZE - payloadLength` wraps to a large
value, so `write(data, n)` copies all `n` bytes, to indices that are all past
the chunk, returns `n` and advances the length by `n`. -/
theorem write_past_chunk_copies_everything (t : Target) (s : RestResponse)
    (data : List Char) (n : Nat)
    (hover : t.REST_MAX_CHUNK_SIZE < s.payloadLength)
    (hw : s.payloadLength + n < 2 ^ t.sizeBits) :
    (write t s data n).1 = n ∧
    (write t s data n).2.payloadLength = s.payloadLength + n ∧
    (∀ j, j < n → t.REST_MAX_CHUNK_SIZE < s.payloadLength + j ∧
      (write t s data n).2.buffer (s.payloadLength + j) = data.getD j NUL) := by
  have hsz : toSize t ((t.REST_MAX_CHUNK_SIZE : Int) - s.payloadLength)
      = 2 ^ t.sizeBits - (s.payloadLength - t.REST_MAX_CHUNK_SIZE) := by
    unfold toSize
    have hp : ((2 : Int) ^ t.sizeBits) = ((2 ^ t.sizeBits : Nat) : Int) := by push_cast; rfl
    have e : (t.REST_MAX_CHUNK_SIZE : Int) - s.payloadLength
        = ((2 ^ t.sizeBits - (s.payloadLength - t.REST_MAX_CHUNK_SIZE) : Nat) : Int)
          + (-1) * (2 : Int) ^ t.sizeBits := by
      rw [hp]; omega
    rw [e, Int.add_mul_emod_self, hp, Int.emod_eq_of_lt (by omega) (by omega)]
    simp
  have h1 : (write t s data n).1 = n := by
    simp only [write, hsz]
    rw [if_pos (by omega)]
  have hb : (write t s data n).2.buffer = memcpy s.buffer s.payloadLength data n := by
    have := h1
    simp only [write] at this ⊢
    rw [this]
  refine ⟨h1, ?_, ?_⟩
  · have := h1
    simp only [write] at this ⊢
    rw [this]
    exact toSize_add t _ _ hw
  · intro j hj
    refine ⟨by omega, ?_⟩
    rw [hb, memcpy_inside _ _ _ _ _ (by omega) (by omega)]
    simp

theorem write_past_chunk_copies_everything_witness :
    (chunk4.REST_MAX_CHUNK_SIZE < (printf chunk4 (new blank 0) "aaaaa".toList []).2.payloadLength ∧
      (printf chunk4 (new blank 0) "aaaaa".toList []).2.payloadLength + 2
        < 2 ^ chunk4.sizeBits) ∧
    (write chunk4 (printf chunk4 (new blank 0) "aaaaa".toList []).2 "xy".toList 2).1 = 2 ∧
    (write chunk4 (printf chunk4 (new blank 0) "aaaaa".toList []).2 "xy".toList 2).2.payloadLength
      = (printf chunk4 (new blank 0) "aaaaa".toList []).2.payloadLength + 2 ∧
    bytesAt (write chunk4 (printf chunk4 (new blank 0) "aaaaa".toList []).2
      "xy".toList 2).2.buffer 4 3 = ['#', 'x', 'y'] :=
  ⟨by decide,
    (write_past_chunk_copies_everything chunk4 (printf chunk4 (new blank 0) "aaaaa".toList []).2
      "xy".toList 2 (by decide) (by decide)).1,
    (write_past_chunk_copies_everything chunk4 (printf chunk4 (new blank 0) "aaaaa".toList []).2
      "xy".toList 2 (by decide) (by decide)).2.1,
    by decide⟩

/-! ## Two writes against one -/

/-- C18: on a writer whose length does not exceed the chunk size, `write(a)`
followed by `write(b)` leaves the same buffer, the same length (and the same
writer altogether) as the single `write(a ++ b)`, and the two returned counts
add up to the count the single write returns. -/
theorem write_compose (t : Target) (s : RestResponse) (a b : List Char)
    (hl : s.payloadLength ≤ t.REST_MAX_CHUNK_SIZE)
    (hc : t.REST_MAX_CHUNK_SIZE < 2 ^ t.sizeBits) :
    (write t (write t s a a.length).2 b b.length).2.buffer
      = (write t s (a ++ b) (a ++ b).length).2.buffer ∧
    (write t (write t s a a.length).2 b b.length).2.payloadLength
      = (write t s (a ++ b) (a ++ b).length).2.payloadLength ∧
    (write t s a a.length).1 + (write t (write t s a a.length).2 b b.length).1
      = (write t s (a ++ b) (a ++ b).length).1 ∧
    (write t (write t s a a.length).2 b b.length).2 = (write t s (a ++ b) (a ++ b).length).2 := by
  have hl1 : (write t s a a.length).2.payloadLength ≤ t.REST_MAX_CHUNK_SIZE := by
    rw [write_payloadLength t s a _ hl hc]; omega
  have hlen : (write t (write t s a a.length).2 b b.length).2.payloadLength
      = (write t s (a ++ b) (a ++ b).length).2.payloadLength := by
    rw [write_payloadLength t _ b _ hl1 hc, write_payloadLength t s a _ hl hc,
      write_payloadLength t s (a ++ b) _ hl hc, List.length_append]
    omega
  have hcnt : (write t s a a.length).1 + (write t (write t s a a.length).2 b b.length).1
      = (write t s (a ++ b) (a ++ b).length).1 := by
    rw [write_fst t _ b _ hl1 hc, write_fst t s a _ hl hc, write_fst t s (a ++ b) _ hl hc,
      write_payloadLength t s a _ hl hc, List.length_append]
    omega
  have hbuf : (write t (write t s a a.length).2 b b.length).2.buffer
      = (write t s (a ++ b) (a ++ b).length).2.buffer := by
    rw [write_buffer t _ b _ hl1 hc, write_buffer t s a _ hl hc,
      write_buffer t s (a ++ b) _ hl hc, write_payloadLength t s a _ hl hc, List.length_append]
    funext i
    simp only [memcpy]
    by_cases h1 : s.payloadLength ≤ i ∧
        i < s.payloadLength + min a.length (t.REST_MAX_CHUNK_SIZE - s.payloadLength)
    · rw [if_neg (by omega), if_pos h1, if_pos ⟨h1.1, by omega⟩,
        List.getD_append _ _ _ _ (by omega)]
    · by_cases h2 : s.payloadLength + min a.length (t.REST_MAX_CHUNK_SIZE - s.payloadLength) ≤ i ∧
          i < s.payloadLength + min a.length (t.REST_MAX_CHUNK_SIZE - s.payloadLength)
            + min b.length (t.REST_MAX_CHUNK_SIZE
              - (s.payloadLength + min a.length (t.REST_MAX_CHUNK_SIZE - s.payloadLength)))
      · rw [if_pos h2, if_pos ⟨by omega, by omega⟩,
          List.getD_append_right _ _ _ _ (by omega)]
        congr 1
        omega
      · rw [if_neg h2, if_neg h1, if_neg (by omega)]
  refine ⟨hbuf, hlen, hcnt, ?_⟩
  have hs : (write t (write t s a a.length).2 b b.length).2.sink
      = (write t s (a ++ b) (a ++ b).length).2.sink := rfl
  have ho : (write t (write t s a a.length).2 b b.length).2.offset
      = (write t s (a ++ b) (a ++ b).length).2.offset := rfl
  cases h1 : (write t (write t s a a.length).2 b b.length).2
  cases h2 : (write t s (a ++ b) (a ++ b).length).2
  rw [h1, h2] at hbuf hlen hs ho
  simp only at hbuf hlen hs ho
  rw [hbuf, hlen, hs, ho]

theorem write_compose_witness :
    ((new blank 0).payloadLength ≤ chunk4.REST_MAX_CHUNK_SIZE ∧
      chunk4.REST_MAX_CHUNK_SIZE < 2 ^ chunk4.sizeBits) ∧
    (write chunk4 (new blank 0) "ab".toList 2).1
        + (write chunk4 (write chunk4 (new blank 0) "ab".toList 2).2 "cdef".toList 4).1 = 4 ∧
    (write chunk4 (write chunk4 (new blank 0) "ab".toList "ab".toList.length).2 "cdef".toList
        "cdef".toList.length).2.buffer
      = (write chunk4 (new blank 0) ("ab".toList ++ "cdef".toList)
          ("ab".toList ++ "cdef".toList).length).2.buffer :=
  ⟨by decide, by decide,
    (write_compose chunk4 (new blank 0) "ab".toList "cdef".toList (by decide) (by decide)).1⟩

/-! ## The float renderer: the rounding law -/

set_option maxRecDepth 4000

/-- C15: for every finite `x` and every precision `d` in 0..255, `printFloat`
returns: the conversion of the rounded magnitude to `unsigned long` is always
defined. For an `x` that passes the guards (`|x| <= 4294967040`) the first loop
leaves `rounding` (at most 0.5), the rounded magnitude `|x| + rounding`, in
binary64, is below `2 ^ 32`, and the conversion gives its integer part, below
`2 ^ 32`. Past the guard the conversion would not be defined on a 32-bit
`unsigned long`: the rounded magnitude of 5e9 has no `unsigned long` value. -/
theorem saturation_guard_prevents_overflow (t : Target) (s : RestResponse) (x : ℚ) (d : Nat)
    (hd : d ≤ 255) :
    (∃ r, printFloat t s (Dbl.fin x) d = some r) ∧
    (|x| ≤ 4294967040 →
      roundingLoop 256 0 d (1 / 2) 0 = some (divTen (1 / 2) d, d) ∧
      divTen (1 / 2) d ≤ 1 / 2 ∧
      roundedMagnitude x d = roundDouble ((if x < 0 then -x else x) + divTen (1 / 2) d) ∧
      roundedMagnitude x d < 2 ^ 32 ∧
      toUnsignedLong t (roundedMagnitude x d)
        = some (truncToInt (roundedMagnitude x d)).toNat ∧
      (truncToInt (roundedMagnitude x d)).toNat < 2 ^ 32) ∧
    toUnsignedLong chunk16 (roundDouble (5000000000 + 1 / 2)) = none := by
  refine ⟨?_, ?_, by with_unfolding_all decide⟩
  · obtain ⟨r, h, _⟩ := printFloat_total t s (Dbl.fin x) d hd
    exact ⟨r, h⟩
  · intro hx
    obtain ⟨h1, h2, _⟩ := toUnsignedLong_roundedMagnitude t x d hx
    refine ⟨?_, (divTen_bounds d (1 / 2) (by norm_num) (le_refl _)).2, ?_, ?_, h1, h2⟩
    · have h := roundingLoop_eq d hd 256 0 (1 / 2) 0 (Nat.zero_le _) (by omega)
      simpa using h
    · rw [magnitude_eq_abs]; rfl
    · have := (roundedMagnitude_bounds x d hx).2
      norm_num
      linarith

theorem saturation_guard_prevents_overflow_witness :
    (0 : Nat) ≤ 255 ∧
    (∃ r, printFloat chunk16 (new blank 0) (Dbl.fin 4294967040) 0 = some r) ∧
    toUnsignedLong chunk16 (roundDouble (5000000000 + 1 / 2)) = none ∧
    (printFloat chunk16 (new blank 0) (Dbl.fin 4294967040) 0).map
        (fun r => (r.1, r.2.payloadLength, bytesAt r.2.buffer 0 r.1))
      = some (10, 10, "4294967040".toList) :=
  ⟨by decide,
    (saturation_guard_prevents_overflow chunk16 (new blank 0) 4294967040 0 (by decide)).1,
    (saturation_guard_prevents_overflow chunk16 (new blank 0) 4294967040 0 (by decide)).2.2,
    by with_unfolding_all decide⟩

/-! ## The shape of a rendered float -/

theorem digitChar_isDigit (k : Nat) (h : k < 10) : (Nat.digitChar k).isDigit = true := by
  interval_cases k <;> rfl

theorem toDigitsCore_isDigit : ∀ (fuel n : Nat) (acc : List Char),
    (∀ c ∈ acc, c.isDigit = true) → ∀ c ∈ Nat.toDigitsCore 10 fuel n acc, c.isDigit = true := by
  intro fuel
  induction fuel with
  | zero => intro n acc h; simpa [Nat.toDigitsCore] using h
  | succ fuel ih =>
    intro n acc h
    have hacc : ∀ c ∈ Nat.digitChar (n % 10) :: acc, c.isDigit = true := by
      intro c hc
      rcases List.mem_cons.mp hc with e | e
      · rw [e]; exact digitChar_isDigit _ (Nat.mod_lt _ (by decide))
      · exact h c e
    simp only [Nat.toDigitsCore]
    split
    · exact hacc
    · exact ih _ _ hacc

theorem toDigitsCore_length_ge : ∀ (fuel n : Nat) (acc : List Char),
    acc.length ≤ (Nat.toDigitsCore 10 fuel n acc).length := by
  intro fuel
  induction fuel with
  | zero => intro n acc; simp [Nat.toDigitsCore]
  | succ fuel ih =>
    intro n acc
    simp only [Nat.toDigitsCore]
    split
    · simp
    · exact le_trans (by simp) (ih _ _)

theorem toDigits_isDigit (n : Nat) : ∀ c ∈ Nat.toDigits 10 n, c.isDigit = true :=
  toDigitsCore_isDigit _ _ [] (by simp)

theorem toDigits_ne_nil (n : Nat) : Nat.toDigits 10 n ≠ [] := by
  intro h
  have h1 : 1 ≤ (Nat.toDigits 10 n).length := by
    simp only [Nat.toDigits, Nat.toDigitsCore]
    split
    · simp
    · exact le_trans (by simp) (toDigitsCore_length_ge _ _ _)
  rw [h] at h1
  simp at h1

theorem remainderStep_spec (r : ℚ) (h0 : 0 ≤ r) (h1 : r ≤ 1 - 1 / 2 ^ 53) :
    (0 ≤ roundDouble (r * 10) ∧ roundDouble (r * 10) < 10) ∧
    truncToInt (roundDouble (r * 10)) = (Nat.floor (roundDouble (r * 10)) : Int) ∧
    Nat.floor (roundDouble (r * 10)) < 10 ∧
    0 ≤ remainderStep r ∧ remainderStep r ≤ 1 - 1 / 2 ^ 53 := by
  have hr0 : (0 : ℚ) ≤ r * 10 := by positivity
  have hv0 := roundDouble_nonneg _ hr0
  have htop : roundDouble ((1 - 1 / 2 ^ 53) * 10) < 10 := by with_unfolding_all decide
  have hv10 : roundDouble (r * 10) < 10 :=
    lt_of_le_of_lt (roundDouble_mono _ _ hr0 (by linarith)) htop
  have htr := truncToInt_of_nonneg _ hv0
  have hfl : Nat.floor (roundDouble (r * 10)) < 10 := by
    rw [Nat.floor_lt hv0]; exact_mod_cast hv10
  have hfr := roundDouble_fract_le (r * 10) hr0
  have hfr0 : (0 : ℚ) ≤ roundDouble (r * 10) - (Int.floor (roundDouble (r * 10)) : ℚ) := by
    have := Int.floor_le (roundDouble (r * 10)); linarith
  have hst : remainderStep r
      = roundDouble (roundDouble (r * 10) - (Int.floor (roundDouble (r * 10)) : ℚ)) := by
    unfold remainderStep
    rw [truncToInt_floor _ hv0]
  have hpred : roundDouble (1 - 1 / 2 ^ 53) ≤ 1 - 1 / 2 ^ 53 := by with_unfolding_all decide
  refine ⟨⟨hv0, hv10⟩, htr, hfl, ?_, ?_⟩
  · rw [hst]; exact roundDouble_nonneg _ hfr0
  · rw [hst]; exact le_trans (roundDouble_mono _ _ hfr0 hfr) hpred

theorem remainderAt_range : ∀ (i : Nat) (r : ℚ), 0 ≤ r → r ≤ 1 - 1 / 2 ^ 53 →
    0 ≤ remainderAt r i ∧ remainderAt r i ≤ 1 - 1 / 2 ^ 53 := by
  intro i
  induction i with
  | zero => intro r h0 h1; exact ⟨h0, h1⟩
  | succ i ih =>
    intro r h0 h1
    obtain ⟨_, _, _, h2, h3⟩ := remainderStep_spec r h0 h1
    exact ih _ h2 h3

theorem fracText_eq_digits : ∀ (d : Nat) (r : ℚ), 0 ≤ r → r ≤ 1 - 1 / 2 ^ 53 →
    fracText d r = (List.range d).map
      (fun i => Nat.digitChar (truncToInt (roundDouble (remainderAt r i * 10))).toNat) := by
  intro d
  induction d with
  | zero => intro r _ _; rfl
  | succ d ih =>
    intro r h0 h1
    obtain ⟨_, htr, hfl, h2, h3⟩ := remainderStep_spec r h0 h1
    rw [List.range_succ_eq_map, List.map_cons, List.map_map]
    simp only [fracText]
    rw [ih _ h2 h3, htr, decimalInt_digit _ hfl]
    simp only [remainderAt, htr, Int.toNat_natCast, List.singleton_append, List.cons.injEq,
      true_and]
    rfl

theorem fracText_length (d : Nat) (r : ℚ) (h0 : 0 ≤ r) (h1 : r ≤ 1 - 1 / 2 ^ 53) :
    (fracText d r).length = d := by
  rw [fracText_eq_digits d r h0 h1]
  simp

theorem fracText_isDigit (d : Nat) (r : ℚ) (h0 : 0 ≤ r) (h1 : r ≤ 1 - 1 / 2 ^ 53) :
    ∀ c ∈ fracText d r, c.isDigit = true := by
  rw [fracText_eq_digits d r h0 h1]
  intro c hc
  obtain ⟨i, _, rfl⟩ := List.mem_map.mp hc
  obtain ⟨g0, g1⟩ := remainderAt_range i r h0 h1
  obtain ⟨_, htr, hfl, _, _⟩ := remainderStep_spec _ g0 g1
  rw [htr, Int.toNat_natCast]
  exact digitChar_isDigit _ hfl

theorem entry_remainder_range (x : ℚ) (d : Nat) (hx : |x| ≤ 4294967040) :
    0 ≤ roundDouble (roundedMagnitude x d - ((truncToInt (roundedMagnitude x d)).toNat : ℚ)) ∧
    roundDouble (roundedMagnitude x d - ((truncToInt (roundedMagnitude x d)).toNat : ℚ))
      ≤ 1 - 1 / 2 ^ 53 := by
  obtain ⟨_, _, h3⟩ := toUnsignedLong_roundedMagnitude chunk16 x d hx
  rw [h3]
  have ha : (0 : ℚ) ≤ |x| + divTen (1 / 2) d := by
    have := abs_nonneg x
    have := (divTen_bounds d (1 / 2) (by norm_num) (le_refl _)).1
    linarith
  have hfr : roundedMagnitude x d - (Int.floor (roundedMagnitude x d) : ℚ) ≤ 1 - 1 / 2 ^ 53 :=
    roundDouble_fract_le _ ha
  have hfr0 : (0 : ℚ) ≤ roundedMagnitude x d - (Int.floor (roundedMagnitude x d) : ℚ) := by
    have := Int.floor_le (roundedMagnitude x d); linarith
  have hpred : roundDouble (1 - 1 / 2 ^ 53) ≤ 1 - 1 / 2 ^ 53 := by with_unfolding_all decide
  exact ⟨roundDouble_nonneg _ hfr0, le_trans (roundDouble_mono _ _ hfr0 hfr) hpred⟩

/-- C14: shape of a rendered float, in binary64 arithmetic. For a finite `x`
with `|x| <= 4294967040` and a precision `d` in 0..255, when the text and the
NUL stored after it fit in the space left: each turn of the digit loop maps
the remainder `r` to `remainderStep r`; entered with the fractional part of the
rounded magnitude, the remainder is in `[0, 1)` at every turn, so each digit
`int(remainder * 10)` is in 0..9 and prints as one character; the text appended
is a '-' exactly when `x < 0`, one or more digit characters, then, only when
`d > 0`, a '.' and exactly `d` digit characters, those digits in turn; and the
count returned is the length of that text, by which the length grows. -/
theorem printFloat_shape (t : Target) (s : RestResponse) (x : ℚ) (d : Nat)
    (hd : d ≤ 255) (hx : |x| ≤ 4294967040)
    (hfit : s.payloadLength + (renderedText x d).length < t.REST_MAX_CHUNK_SIZE)
    (hc : t.REST_MAX_CHUNK_SIZE < 2 ^ t.sizeBits) :
    (∀ (fuel : Nat) (s1 : RestResponse) (d1 : Nat) (r : ℚ) (n k : Nat),
      digitLoop t (fuel + 1) s1 (d1 + 1) r n k
        = digitLoop t fuel (print_int t s1 (truncToInt (roundDouble (r * 10)))).2 d1
            (remainderStep r)
            (toSize t ((n : Int) + (print_int t s1 (truncToInt (roundDouble (r * 10)))).1))
            (k + 1)) ∧
    (∀ i,
      0 ≤ remainderAt (roundDouble (roundedMagnitude x d
          - ((truncToInt (roundedMagnitude x d)).toNat : ℚ))) i ∧
      remainderAt (roundDouble (roundedMagnitude x d
          - ((truncToInt (roundedMagnitude x d)).toNat : ℚ))) i < 1 ∧
      0 ≤ truncToInt (roundDouble (remainderAt (roundDouble (roundedMagnitude x d
          - ((truncToInt (roundedMagnitude x d)).toNat : ℚ))) i * 10)) ∧
      truncToInt (roundDouble (remainderAt (roundDouble (roundedMagnitude x d
          - ((truncToInt (roundedMagnitude x d)).toNat : ℚ))) i * 10)) ≤ 9 ∧
      (decimalInt (truncToInt (roundDouble (remainderAt (roundDouble (roundedMagnitude x d
          - ((truncToInt (roundedMagnitude x d)).toNat : ℚ))) i * 10)))).length = 1) ∧
    ∃ (n : Nat) (s2 : RestResponse) (ip frac : List Char),
      printFloat t s (Dbl.fin x) d = some (n, s2) ∧
      Appended s s2
        ((if x < 0 then ['-'] else []) ++ (ip ++ ((if d = 0 then [] else ['.']) ++ frac))) ∧
      ip ≠ [] ∧ (∀ c ∈ ip, c.isDigit = true) ∧
      frac.length = d ∧ (∀ c ∈ frac, c.isDigit = true) ∧
      frac = (List.range d).map (fun i => Nat.digitChar (truncToInt
        (roundDouble (remainderAt (roundDouble (roundedMagnitude x d
          - ((truncToInt (roundedMagnitude x d)).toNat : ℚ))) i * 10))).toNat) ∧
      n = ((if x < 0 then ['-'] else []) ++
        (ip ++ ((if d = 0 then [] else ['.']) ++ frac))).length ∧
      s2.payloadLength = s.payloadLength + n := by
  obtain ⟨hr0, hr1⟩ := entry_remainder_range x d hx
  refine ⟨?_, ?_, ?_⟩
  · intro fuel s1 d1 r n k
    rw [digitLoop, if_pos (Nat.succ_pos d1)]
    simp only [Nat.add_sub_cancel, remainderStep]
  · intro i
    obtain ⟨h0, h1⟩ := remainderAt_range i _ hr0 hr1
    obtain ⟨_, htr, hfl, _, _⟩ := remainderStep_spec _ h0 h1
    refine ⟨h0, ?_, ?_, ?_, ?_⟩
    · have : (1 : ℚ) - 1 / 2 ^ 53 < 1 := by norm_num
      linarith
    · rw [htr]; exact Int.natCast_nonneg _
    · rw [htr]; omega
    · rw [htr, decimalInt_digit _ hfl]; rfl
  · obtain ⟨s2, h1, h2⟩ := printFloat_appends_renderedText t s x d hd hx hfit hc
    exact ⟨(renderedText x d).length, s2,
      Nat.toDigits 10 (truncToInt (roundedMagnitude x d)).toNat,
      fracText d (roundDouble (roundedMagnitude x d
        - ((truncToInt (roundedMagnitude x d)).toNat : ℚ))),
      h1, h2, toDigits_ne_nil _, toDigits_isDigit _, fracText_length d _ hr0 hr1,
      fracText_isDigit d _ hr0 hr1, fracText_eq_digits d _ hr0 hr1, rfl, h2.1⟩

theorem printFloat_shape_witness :
    ((2 : Nat) ≤ 255 ∧ |roundDouble (-3456 / 1000)| ≤ 4294967040 ∧
      (new blank 0).payloadLength + (renderedText (roundDouble (-3456 / 1000)) 2).length
        < chunk16.REST_MAX_CHUNK_SIZE ∧
      chunk16.REST_MAX_CHUNK_SIZE < 2 ^ chunk16.sizeBits) ∧
    (printFloat chunk16 (new blank 0) (Dbl.fin (roundDouble (-3456 / 1000))) 2).map
        (fun r => (r.1, r.2.payloadLength, bytesAt r.2.buffer 0 r.1))
      = some (5, 5, "-3.46".toList) ∧
    ∃ (n : Nat) (s2 : RestResponse) (ip frac : List Char),
      printFloat chunk16 (new blank 0) (Dbl.fin (roundDouble (-3456 / 1000))) 2 = some (n, s2) ∧
      Appended (new blank 0) s2
        ((if roundDouble (-3456 / 1000) < 0 then ['-'] else []) ++
          (ip ++ ((if (2 : Nat) = 0 then [] else ['.']) ++ frac))) ∧
      ip ≠ [] ∧ (∀ c ∈ ip, c.isDigit = true) ∧
      frac.length = 2 ∧ (∀ c ∈ frac, c.isDigit = true) ∧
      frac = (List.range 2).map (fun i => Nat.digitChar (truncToInt
        (roundDouble (remainderAt (roundDouble (roundedMagnitude (roundDouble (-3456 / 1000)) 2
          - ((truncToInt (roundedMagnitude (roundDouble (-3456 / 1000)) 2)).toNat : ℚ))) i
            * 10))).toNat) ∧
      n = ((if roundDouble (-3456 / 1000) < 0 then ['-'] else []) ++
        (ip ++ ((if (2 : Nat) = 0 then [] else ['.']) ++ frac))).length ∧
      s2.payloadLength = (new blank 0).payloadLength + n :=
  ⟨by with_unfolding_all decide, by with_unfolding_all decide,
    (printFloat_shape chunk16 (new blank 0) (roundDouble (-3456 / 1000)) 2 (by decide)
      (by with_unfolding_all decide) (by with_unfolding_all decide) (by decide)).2.2⟩

/-! ## The sign of a negative value -/

/-- C19: for a finite `x` with `-4294967040 <= x < 0` and a precision `d` (a
`uint8_t`), when the text and the NUL stored after it fit in the space left,
the text `printFloat(x, d)` appends begins with '-', followed by what it
renders for `-x`, whatever the digits are: the sign is printed before the
rounding. On a 16-byte chunk `printFloat(-0.001, 2)` writes "-0.00". -/
theorem printFloat_negative_keeps_sign (t : Target) (s : RestResponse) (x : ℚ) (d : Nat)
    (hd : d ≤ 255) (hneg : x < 0) (hlo : -4294967040 ≤ x)
    (hfit : s.payloadLength + (renderedText x d).length < t.REST_MAX_CHUNK_SIZE)
    (hc : t.REST_MAX_CHUNK_SIZE < 2 ^ t.sizeBits) :
    (∃ s2, printFloat t s (Dbl.fin x) d = some ((renderedText x d).length, s2) ∧
      renderedText x d = '-' :: renderedText (-x) d ∧
      s2.buffer s.payloadLength = '-' ∧
      bytesAt s2.buffer s.payloadLength (renderedText x d).length
        = '-' :: renderedText (-x) d) ∧
    (printFloat chunk16 (new blank 0) (Dbl.fin (roundDouble (-1 / 1000))) 2).map
        (fun r => (r.1, r.2.payloadLength, bytesAt r.2.buffer 0 r.1))
      = some (5, 5, "-0.00".toList) := by
  have hx : |x| ≤ 4294967040 := abs_le.mpr ⟨hlo, by linarith⟩
  obtain ⟨s2, h1, h2⟩ := printFloat_appends_renderedText t s x d hd hx hfit hc
  have hT : renderedText x d = '-' :: renderedText (-x) d := by
    have hpos : ¬ (-x < 0) := by linarith
    simp only [renderedText, roundedMagnitude, abs_neg, if_pos hneg, if_neg hpos,
      List.singleton_append, List.nil_append]
  refine ⟨⟨s2, h1, hT, ?_, ?_⟩, by with_unfolding_all decide⟩
  · have h := h2.2.1 0 (by rw [hT]; simp)
    rw [hT] at h
    simpa using h
  · have h := Appended.bytesAt_eq s s2 _ h2
    rw [h]
    exact hT

theorem printFloat_negative_keeps_sign_witness :
    ((2 : Nat) ≤ 255 ∧ roundDouble (-1 / 1000) < 0 ∧
      (-4294967040 : ℚ) ≤ roundDouble (-1 / 1000) ∧
      (new blank 0).payloadLength + (renderedText (roundDouble (-1 / 1000)) 2).length
        < chunk16.REST_MAX_CHUNK_SIZE ∧
      chunk16.REST_MAX_CHUNK_SIZE < 2 ^ chunk16.sizeBits) ∧
    renderedText (roundDouble (-1 / 1000)) 2 = "-0.00".toList ∧
    ∃ s2, printFloat chunk16 (new blank 0) (Dbl.fin (roundDouble (-1 / 1000))) 2
        = some ((renderedText (roundDouble (-1 / 1000)) 2).length, s2) ∧
      renderedText (roundDouble (-1 / 1000)) 2
        = '-' :: renderedText (-roundDouble (-1 / 1000)) 2 ∧
      s2.buffer (new blank 0).payloadLength = '-' ∧
      bytesAt s2.buffer (new blank 0).payloadLength
          (renderedText (roundDouble (-1 / 1000)) 2).length
        = '-' :: renderedText (-roundDouble (-1 / 1000)) 2 :=
  ⟨by with_unfolding_all decide, by with_unfolding_all decide,
    (printFloat_negative_keeps_sign chunk16 (new blank 0) (roundDouble (-1 / 1000)) 2
      (by decide) (by with_unfolding_all decide) (by with_unfolding_all decide)
      (by with_unfolding_all decide) (by decide)).1⟩

/-! ## Narrowing of the precision -/

theorem point_not_mem_renderedText_zero (x : ℚ) : '.' ∉ renderedText x 0 := by
  simp only [renderedText, if_true, fracText, List.append_nil, List.mem_append, not_or]
  refine ⟨?_, ?_⟩
  · split_ifs <;> simp
  · intro h
    have := toDigits_isDigit _ _ h
    exact absurd this (by decide)

/-- C20: in the build with the manual renderer, `print(double, int)` and
`print(float, int)` hand the `int` precision to the `uint8_t` parameter of
`printFloat`, so the result is that of `printFloat` with `digits mod 256`, a
value in 0..255 for which both loops end after exactly that many turns and the
call returns. Precision 256 renders as precision 0: the text appended has no
fractional digit and no decimal point. Precision -1 renders as precision 255:
the text appended has a decimal point followed by 255 digits. -/
theorem precision_is_narrowed (t : Target) (s : RestResponse) (number : Dbl) (digits : Int)
    (hC : t.CONTIKI = true) :
    (print_double t s number digits = printFloat t s number (digits % 256).toNat ∧
      print_float t s number digits = printFloat t s number (digits % 256).toNat ∧
      ((digits % 256).toNat : Int) = digits % 256 ∧ (digits % 256).toNat ≤ 255 ∧
      ∃ r, print_double t s number digits = some r) ∧
    (roundingLoop 256 0 (digits % 256).toNat (1 / 2) 0
        = some (divTen (1 / 2) (digits % 256).toNat, (digits % 256).toNat) ∧
      ∀ (s1 : RestResponse) (r : ℚ) (n : Nat), ∃ n2 s2,
        digitLoop t 256 s1 (digits % 256).toNat r n 0 = some (n2, s2, (digits % 256).toNat)) ∧
    (print_double t s number 256 = printFloat t s number 0 ∧
      ∀ x : ℚ, |x| ≤ 4294967040 →
        s.payloadLength + (renderedText x 0).length < t.REST_MAX_CHUNK_SIZE →
        t.REST_MAX_CHUNK_SIZE < 2 ^ t.sizeBits →
        ∃ s2, print_double t s (Dbl.fin x) 256 = some ((renderedText x 0).length, s2) ∧
          Appended s s2 (renderedText x 0) ∧ '.' ∉ renderedText x 0 ∧
          renderedText x 0 = (if x < 0 then ['-'] else []) ++
            Nat.toDigits 10 (truncToInt (roundedMagnitude x 0)).toNat) ∧
    (print_double t s number (-1) = printFloat t s number 255 ∧
      ∀ x : ℚ, |x| ≤ 4294967040 →
        s.payloadLength + (renderedText x 255).length < t.REST_MAX_CHUNK_SIZE →
        t.REST_MAX_CHUNK_SIZE < 2 ^ t.sizeBits →
        ∃ s2 ip frac, print_double t s (Dbl.fin x) (-1)
            = some ((renderedText x 255).length, s2) ∧
          Appended s s2 (renderedText x 255) ∧
          renderedText x 255 = (if x < 0 then ['-'] else []) ++ (ip ++ ('.' :: frac)) ∧
          frac.length = 255 ∧ ∀ c ∈ frac, c.isDigit = true) := by
  have hle := narrowed_le digits
  have hd : ∀ k : Int, print_double t s number k = printFloat t s number (k % 256).toNat := by
    intro k; simp only [print_double, hC, if_true]
  have hf : print_float t s number digits = printFloat t s number (digits % 256).toNat := by
    simp only [print_float, hC, if_true]
  have hdx : ∀ (x : ℚ) (k : Int),
      print_double t s (Dbl.fin x) k = printFloat t s (Dbl.fin x) (k % 256).toNat := by
    intro x k; simp only [print_double, hC, if_true]
  refine ⟨⟨hd digits, hf, ?_, hle, ?_⟩, ⟨?_, ?_⟩, ⟨hd 256, ?_⟩, ⟨hd (-1), ?_⟩⟩
  · exact Int.toNat_of_nonneg (Int.emod_nonneg digits (by decide))
  · obtain ⟨r, h, _⟩ := printFloat_total t s number _ hle
    exact ⟨r, (hd digits).trans h⟩
  · have h := roundingLoop_eq _ hle 256 0 (1 / 2) 0 (Nat.zero_le _) (by omega)
    simpa using h
  · intro s1 r n
    obtain ⟨n2, s2, h, _, _⟩ := digitLoop_total t 256 _ s1 r n 0
      (show (digits % 256).toNat < 256 by omega)
    exact ⟨n2, s2, by simpa using h⟩
  · intro x hx hfit hc
    obtain ⟨s2, h1, h2⟩ := printFloat_appends_renderedText t s x 0 (by decide) hx hfit hc
    refine ⟨s2, (hdx x 256).trans h1, h2, point_not_mem_renderedText_zero x, ?_⟩
    simp [renderedText, fracText]
  · intro x hx hfit hc
    obtain ⟨s2, h1, h2⟩ := printFloat_appends_renderedText t s x 255 (by decide) hx hfit hc
    obtain ⟨hr0, hr1⟩ := entry_remainder_range x 255 hx
    refine ⟨s2, Nat.toDigits 10 (truncToInt (roundedMagnitude x 255)).toNat,
      fracText 255 (roundDouble (roundedMagnitude x 255
        - ((truncToInt (roundedMagnitude x 255)).toNat : ℚ))),
      (hdx x (-1)).trans h1, h2, ?_, fracText_length _ _ hr0 hr1,
      fracText_isDigit _ _ hr0 hr1⟩
    simp [renderedText]

theorem precision_is_narrowed_witness :
    chunk16.CONTIKI = true ∧
    print_double chunk16 (new blank 0) (Dbl.fin (3 / 2)) 256
      = printFloat chunk16 (new blank 0) (Dbl.fin (3 / 2)) 0 ∧
    print_double chunk16 (new blank 0) (Dbl.fin (3 / 2)) (-1)
      = printFloat chunk16 (new blank 0) (Dbl.fin (3 / 2)) 255 ∧
    (print_double chunk16 (new blank 0) (Dbl.fin (3 / 2)) 256).map
        (fun r => (r.1, r.2.payloadLength, bytesAt r.2.buffer 0 r.1))
      = some (1, 1, "2".toList) ∧
    (print_double chunk16 (new blank 0) (Dbl.fin (3 / 2)) 258).map
        (fun r => (r.1, r.2.payloadLength, bytesAt r.2.buffer 0 r.1))
      = some (4, 4, "1.50".toList) :=
  ⟨rfl, (precision_is_narrowed chunk16 (new blank 0) (Dbl.fin (3 / 2)) 0 rfl).2.2.1.1,
    (precision_is_narrowed chunk16 (new blank 0) (Dbl.fin (3 / 2)) 0 rfl).2.2.2.1,
    by with_unfolding_all decide, by with_unfolding_all decide⟩

end RestResponse
